import Mathlib

/-!
# Verification of the `menu` tree library

Shallow embedding of `src/menu.py` (class `Menu`): an ordered rooted tree of
titled nodes carrying a string-keyed attribute mapping, with mutation,
linearization (`get_structure`), diagram rendering (`tree`) and plain-data
conversion (`export` / `instantiate_from_dict`).

Python dictionaries are modelled as insertion-ordered association lists
(Python ≥ 3.7 dicts are ordered); `dict.update` overwrites an existing key in
place and appends new keys, which `pyDictUpdate` reproduces.  Python dict keys
must be hashable, so attribute keys are modelled by the non-container type
`PyKey`; values by `PyVal`, which also has an `obj` constructor standing for
any Python object outside `int | float | str | bool | list | dict | None`
(the union checked by the validators).  Mutating methods are modelled as
functions returning `(Except PyError _) × Menu`: the first component is the
raised exception or the return value, the second the state of the receiver
after the call (so eagerness/atomicity is expressible).
-/

/-- A hashable Python value, usable as a `dict` key.  `float` carries its
literal opaquely: no float arithmetic occurs anywhere in the library. -/
inductive PyKey where
  | str (s : String)
  | int (n : Int)
  | float (lit : String)
  | bool (b : Bool)
  | none
  | obj (tag : Nat)
  deriving DecidableEq, Repr

/-- A Python value.  The constructors other than `obj` are exactly the members
of the union `int | float | str | bool | list | dict | NoneType` checked by
`element_type_check` at the attribute mutation sites; `obj` stands for any
other Python object (e.g. a set or a user object). -/
inductive PyVal where
  | int (n : Int)
  | float (lit : String)
  | str (s : String)
  | bool (b : Bool)
  | list (xs : List PyVal)
  | dict (entries : List (PyKey × PyVal))
  | none
  | obj (tag : Nat)

/-- The exceptions the library can raise: `err` is the library's own `Error`
(raised by the `_exception` wrapper on an `ErrorInfo` result), the others are
the builtin Python exceptions. -/
inductive PyError where
  | typeError (msg : String)
  | indexError (msg : String)
  | keyError (msg : String)
  | err (msg : String)
  deriving DecidableEq, Repr

/-- The in-memory tree node (Python class `Menu`): private fields
`__title`, `__attributes`, `__sub_menus` (a deque of children, modelled as a
list) and `__tree_indent`. -/
inductive Menu where
  | mk (title : String) (attributes : List (PyKey × PyVal))
       (sub_menus : List Menu) (tree_indent : Int)

def Menu.title : Menu → String
  | .mk t _ _ _ => t

def Menu.attributes : Menu → List (PyKey × PyVal)
  | .mk _ a _ _ => a

def Menu.sub_menus : Menu → List Menu
  | .mk _ _ s _ => s

def Menu.tree_indent : Menu → Int
  | .mk _ _ _ i => i

/-- The plain-data record produced by `export` and consumed by
`instantiate_from_dict`: a dict with fields `"title"`, `"attributes"` and
`"sub_menus"` (a list of records).  Modelled as a typed record: the three
keys are always present with these shapes in every record the library
produces. -/
inductive MenuDict where
  | mk (title : String) (attributes : List (PyKey × PyVal))
       (sub_menus : List MenuDict)

def MenuDict.title : MenuDict → String
  | .mk t _ _ => t

def MenuDict.attributes : MenuDict → List (PyKey × PyVal)
  | .mk _ a _ => a

def MenuDict.sub_menus : MenuDict → List MenuDict
  | .mk _ _ s => s

/-- Python `title.strip() == ""`: true iff every character is whitespace
(in particular for the empty string). -/
def pyBlank (s : String) : Bool :=
  s.toList.all Char.isWhitespace

/-- Whether a key is a Python `str` (the check
`element_type_check(keys, str)` in `instantiate_from_dict`). -/
def PyKey.isStr : PyKey → Bool
  | .str _ => true
  | _ => false

/-- Modelled from the spec: the external validator `element_type_check`
checks each element against `Union[int, float, str, bool, list, dict,
NoneType]` and raises `TypeError` on a mismatch; on `PyVal` every
constructor except `obj` is a member of that union. -/
def scalarOK : PyVal → Bool
  | .obj _ => false
  | _ => true

/-- One Python `dict` assignment `d[k] = v` on an ordered association list:
overwrite in place if the key is present, else append. -/
def pyDictUpdate (d : List (PyKey × PyVal)) (k : PyKey) (v : PyVal) :
    List (PyKey × PyVal) :=
  if d.any (fun p => p.1 = k) then
    d.map (fun p => if p.1 = k then (k, v) else p)
  else
    d ++ [(k, v)]

/-- Python `d.update(kvs)`: assignments in iteration order. -/
def pyDictUpdateAll (d : List (PyKey × PyVal)) (kvs : List (PyKey × PyVal)) :
    List (PyKey × PyVal) :=
  kvs.foldl (fun acc p => pyDictUpdate acc p.1 p.2) d

/-- Python `d.pop(k, None)`: drop the entry with key `k` if present. -/
def pyDictPop (d : List (PyKey × PyVal)) (k : PyKey) :
    List (PyKey × PyVal) :=
  d.filter (fun p => ¬ p.1 = k)

/-- Python sequence indexing `xs[i]` with negative-index support:
valid iff `-len ≤ i < len`. -/
def pySeqGet (xs : List α) (i : Int) : Except PyError α :=
  let n : Int := xs.length
  let j : Int := if i < 0 then n + i else i
  if h : 0 ≤ j ∧ j < n then
    .ok (xs.get ⟨j.toNat, by
      have := h.2
      omega⟩)
  else
    .error (.indexError "index out of range")

/-- Python `list.insert(i, x)` / `deque.insert`: clamps the position into
range instead of failing (negative indices count from the end). -/
def pyInsert (xs : List α) (i : Int) (x : α) : List α :=
  let n : Int := xs.length
  let j : Int := if i < 0 then max 0 (n + i) else min i n
  xs.take j.toNat ++ x :: xs.drop j.toNat

/-- Python `del xs[i]`: removes the element at `i` (negative indices count
from the end), `IndexError` when out of range. -/
def pyDelAt (xs : List α) (i : Int) : Except PyError (List α) :=
  let n : Int := xs.length
  let j : Int := if i < 0 then n + i else i
  if 0 ≤ j ∧ j < n then
    .ok (xs.take j.toNat ++ xs.drop (j.toNat + 1))
  else
    .error (.indexError "deque index out of range")

/-! ## The mutation API (`Menu.__init__` and the mutating methods)

Each mutating method returns `(result, state-after-call)`; `result` is
`.error e` when the Python call raises `e`, in which case the second
component is the receiver as the raising call left it. -/

/-- Constructor `Menu.__init__(title=None)`: blank or absent titles are replaced by
`"untitled"`; attributes start empty, no children, indent 4. -/
def Menu.init (title : Option String) : Menu :=
  let t := match title with
    | Option.none => "untitled"
    | some s => if pyBlank s then "untitled" else s
  .mk t [] [] 4

/-- The `title` property setter `__set_title` (same blank substitution). -/
def Menu.set_title (m : Menu) (title : Option String) : Menu :=
  let t := match title with
    | Option.none => "untitled"
    | some s => if pyBlank s then "untitled" else s
  .mk t m.attributes m.sub_menus m.tree_indent

/-- The `attributes` property setter `__set_attributes(kwargs: dict)`:
when `kwargs` is non-empty, `element_type_check` validates the *values*
against the scalar union (the keys are not checked); then the mapping is
cleared and updated from `kwargs`. -/
def Menu.set_attributes (m : Menu) (kwargs : List (PyKey × PyVal)) :
    (Except PyError Unit) × Menu :=
  if !kwargs.isEmpty && !kwargs.all (fun p => scalarOK p.2) then
    (.error (.typeError "kwargs.values()"), m)
  else
    (.ok (), .mk m.title (pyDictUpdateAll [] kwargs) m.sub_menus m.tree_indent)

/-- Method `add_attributes(self, **kwargs)`: raises `Error` when called with no
arguments; validates the values against the scalar union; then merges.
Keyword-argument names are strings by Python call semantics, hence the
`String` keys. -/
def Menu.add_attributes (m : Menu) (kwargs : List (String × PyVal)) :
    (Except PyError Unit) × Menu :=
  if kwargs.isEmpty then
    (.error (.err "add_attributes() requires at least one argument"), m)
  else if !kwargs.all (fun p => scalarOK p.2) then
    (.error (.typeError "kwargs.values()"), m)
  else
    (.ok (),
     .mk m.title
       (pyDictUpdateAll m.attributes (kwargs.map (fun p => (PyKey.str p.1, p.2))))
       m.sub_menus m.tree_indent)

/-- Method `del_attributes(self, *args)`: raises `Error` when called with no
arguments; `element_type_check(args, str)`; then `pop(key, None)` for each
key in order (absent keys are ignored). -/
def Menu.del_attributes (m : Menu) (args : List PyKey) :
    (Except PyError Unit) × Menu :=
  if args.isEmpty then
    (.error (.err "del_attributes() requires at least one argument"), m)
  else if !args.all PyKey.isStr then
    (.error (.typeError "args"), m)
  else
    (.ok (), .mk m.title (args.foldl pyDictPop m.attributes)
      m.sub_menus m.tree_indent)

/-- Python call semantics for `del_attributes(self, *args)`: the definition
takes no keyword parameters, so a call that supplies any keyword argument
(e.g. `delete_all=True`) raises `TypeError` before the body runs. -/
def Menu.del_attributes_call (m : Menu) (args : List PyKey)
    (kwargs : List (String × PyVal)) : (Except PyError Unit) × Menu :=
  if !kwargs.isEmpty then
    (.error (.typeError "del_attributes() got an unexpected keyword argument"), m)
  else
    m.del_attributes args

/-- The `text` property setter: `self.add_attributes(__text__=content)`. -/
def Menu.set_text (m : Menu) (content : String) :
    (Except PyError Unit) × Menu :=
  m.add_attributes [("__text__", .str content)]

/-- The `comment` property setter:
`self.add_attributes(__comment__=content)`. -/
def Menu.set_comment (m : Menu) (content : String) :
    (Except PyError Unit) × Menu :=
  m.add_attributes [("__comment__", .str content)]

/-- Method `get_sub_menu(self, locator)`: starting from `self`, repeatedly index
into `sub_menus` with each integer of the locator ( Python sequence
indexing, so negative indices are allowed and an out-of-range index raises
`IndexError`). -/
def Menu.get_sub_menu (m : Menu) (locator : List Int) : Except PyError Menu :=
  locator.foldlM (fun cur i => pySeqGet cur.sub_menus i) m

/-- Argument `menu_instance` of `add_sub_menu`: `None`, a `Menu`, or some
other Python object (which the method rejects). -/
inductive PyObj where
  | menu (m : Menu)
  | other (tag : Nat)

/-- Method `add_sub_menu(self, title=None, *, menu_instance=None, index=None,
add_deepcopy=True)`: a fresh node (or a deep copy of the given one — the
deep copy is the identity under value semantics) is optionally retitled
(blank titles substituted) and inserted at `index` (appended when `index`
is `None`; `deque.insert` clamps out-of-range positions).  Returns the
inserted node.  A `menu_instance` that is neither `None` nor a `Menu`
raises the library `Error`. -/
def Menu.add_sub_menu (m : Menu) (title : Option String)
    (menu_instance : Option PyObj) (index : Option Int)
    (add_deepcopy : Bool) : (Except PyError Menu) × Menu :=
  let inst : Except PyError Menu :=
    match menu_instance with
    | Option.none => .ok (Menu.init Option.none)
    | some (.menu c) => .ok (if add_deepcopy then c else c)
    | some (.other _) =>
        .error (.err "argument 'menu_instance' must be an instance of 'Menu' or NoneType")
  match inst with
  | .error e => (.error e, m)
  | .ok child =>
    let child := match title with
      | Option.none => child
      | some t => child.set_title (some (if pyBlank t then "untitled" else t))
    let subs := match index with
      | Option.none => m.sub_menus ++ [child]
      | some i => pyInsert m.sub_menus i child
    (.ok child, .mk m.title m.attributes subs m.tree_indent)

/-- Method `del_sub_menu(self, index=-1, *, delete_all=False)`: clears all
children when `delete_all`, else deletes the child at `index`
(`IndexError` when out of range). -/
def Menu.del_sub_menu (m : Menu) (index : Int) (delete_all : Bool) :
    (Except PyError Unit) × Menu :=
  if delete_all then
    (.ok (), .mk m.title m.attributes [] m.tree_indent)
  else
    match pyDelAt m.sub_menus index with
    | .error e => (.error e, m)
    | .ok subs => (.ok (), .mk m.title m.attributes subs m.tree_indent)

/-- The `tree_indent` property setter `__set_tree_indent`: raises the
library `Error` for a non-positive value, before any mutation. -/
def Menu.set_tree_indent (m : Menu) (ti : Int) :
    (Except PyError Unit) × Menu :=
  if ti ≤ 0 then
    (.error (.err "argument 'tree_indent' must be greater than 0"), m)
  else
    (.ok (), .mk m.title m.attributes m.sub_menus ti)

/-! ## Linearization: `get_structure` -/

mutual

/-- Size of a node (for termination of the loop embeddings). -/
def Menu.size : Menu → Nat
  | .mk _ _ subs _ => 1 + sizeL subs

/-- Total size of a list of nodes. -/
def sizeL : List Menu → Nat
  | [] => 0
  | m :: ms => Menu.size m + sizeL ms

end

theorem Menu.size_eq (m : Menu) : m.size = 1 + sizeL m.sub_menus := by
  cases m
  rfl

theorem Menu.size_pos (m : Menu) : 0 < m.size := by
  rw [Menu.size_eq]
  omega

/-- Sum of the node sizes of a work deque. -/
def dqSize (dq : List (Nat × Menu)) : Nat :=
  (dq.map (fun p => p.2.size)).sum

theorem dqSize_append (a b : List (Nat × Menu)) :
    dqSize (a ++ b) = dqSize a + dqSize b := by
  simp [dqSize]

theorem dqSize_cons (p : Nat × Menu) (rest : List (Nat × Menu)) :
    dqSize (p :: rest) = p.2.size + dqSize rest := by
  simp [dqSize]

theorem dqSize_map_children (l : Nat) (ms : List Menu) :
    dqSize (ms.map (fun c => (l, c))) = sizeL ms := by
  induction ms with
  | nil => rfl
  | cons m ms ih => simp [dqSize, sizeL] at ih ⊢; omega

/-- The `while deque_:` loop of `get_structure`: pop the front entry,
record it, and push the entries `(level+1, child)` for the children on the
front in order (`extendleft(reversed(...))` prepends the reversed children,
i.e. prepends the children in their stored order). -/
def structLoop : List (Nat × Menu) → List (Nat × Menu)
  | [] => []
  | (l, m) :: rest =>
      (l, m) :: structLoop (m.sub_menus.map (fun c => (l + 1, c)) ++ rest)
termination_by dq => dqSize dq
decreasing_by
  simp only [dqSize_append, dqSize_cons, dqSize_map_children]
  have := Menu.size_eq m
  omega

/-- Method `get_structure(self, return_title=False)` before the output dispatch:
the pre-order work-list traversal, recording `(level, node)` pairs.  (The
`return_title=True` variant records `(level, node.title)` instead, which is
the image of this list under mapping the payload to its title:
`Menu.get_structure_titles`.) -/
def Menu.get_structure (m : Menu) : List (Nat × Menu) :=
  structLoop [(0, m)]

/-- Method `get_structure(self, return_title=True)`: same traversal, recording the
title of each visited node. -/
def Menu.get_structure_titles (m : Menu) : List (Nat × String) :=
  m.get_structure.map (fun p => (p.1, p.2.title))

/-- Reference pre-order linearization (the specification's recursive
description): list a sibling list at depth `l`, each node followed by its
whole subtree before the next sibling. -/
def flatL (l : Nat) : List Menu → List (Nat × Menu)
  | [] => []
  | m :: ms => (l, m) :: (flatL (l + 1) m.sub_menus ++ flatL l ms)
termination_by ms => sizeL ms
decreasing_by
  all_goals simp only [sizeL]
  · have := Menu.size_eq m
    omega
  · have := Menu.size_pos m
    omega

/-- Pre-order of the subtree rooted at `m`, with the root at depth 0. -/
def Menu.preorder (m : Menu) : List (Nat × Menu) :=
  flatL 0 [m]

/-! ## The `"dict"` output form: locator paths -/

/-- One Python `dict` assignment, for `tuple`-keyed dicts (`structure_dict`
of `get_structure` and the lookups in `tree`). -/
def listDictUpdate (d : List (List Nat × α)) (k : List Nat) (v : α) :
    List (List Nat × α) :=
  if d.any (fun p => p.1 = k) then
    d.map (fun p => if p.1 = k then (k, v) else p)
  else
    d ++ [(k, v)]

/-- Python `structure.get(key, None)` on a `tuple`-keyed dict. -/
def listDictGet (d : List (List Nat × α)) (k : List Nat) : Option α :=
  (d.find? (fun p => p.1 = k)).map Prod.snd

/-- Python `cursor[-1] += 1`.  A Python call would raise `IndexError` on an empty
cursor; that state is unreachable for `get_structure` outputs (the first
entry has level 0 and levels grow by at most one), so the empty case is a
no-op here. -/
def incrLast : List Nat → List Nat
  | [] => []
  | [i] => [i + 1]
  | i :: rest => i :: incrLast rest

/-- State of the `"dict"` rebuilding loop of `get_structure`: the current
locator `cursor`, `latest_level`, and the dict built so far.  (Python's
`latest_level` starts unbound; it is only read after the first iteration
has set it, and the first entry of a `get_structure` run has level 0, so
starting it at 0 is unobservable.) -/
structure SDState (α : Type) where
  cursor : List Nat
  latest : Nat
  sdict : List (List Nat × α)

/-- One iteration of the `"dict"` loop: level 0 stores under the empty
locator; a level increase appends `0` to the cursor; otherwise the cursor
is truncated to `level` entries when the level decreased, and its last
entry is incremented. -/
def sdStep (st : SDState α) (lv : Nat) (x : α) : SDState α :=
  if lv = 0 then
    { st with sdict := listDictUpdate st.sdict [] x, latest := 0 }
  else
    let cursor :=
      if st.latest < lv then st.cursor ++ [0]
      else if lv < st.latest then incrLast (st.cursor.take lv)
      else incrLast st.cursor
    ⟨cursor, lv, listDictUpdate st.sdict cursor x⟩

/-- The `"dict"` output form: rebuild each entry's locator path from the
`(level, payload)` sequence. -/
def structure_dict (s : List (Nat × α)) : List (List Nat × α) :=
  (s.foldl (fun st p => sdStep st p.1 p.2) ⟨[], 0, []⟩).sdict

/-- Python `s.lower()` (the dispatch strings are ASCII). -/
def strLower (s : String) : String :=
  String.mk (s.toList.map Char.toLower)

/-- The output forms of `get_structure`: `"deque"`/`"tuple"`/`"list"` give
the `(level, payload)` sequence (identical as value sequences), `"dict"`
gives the locator-keyed mapping. -/
inductive StructRet (α : Type) where
  | seq (entries : List (Nat × α))
  | pathDict (entries : List (List Nat × α))

/-- The `type_of_return` dispatch of `get_structure` (match on the
lowercased string; anything unrecognized raises the library `Error`). -/
def get_structure_call (s : List (Nat × α)) (type_of_return : String) :
    Except PyError (StructRet α) :=
  match strLower type_of_return with
  | "d" | "deque" | "t" | "tuple" | "l" | "list" => .ok (.seq s)
  | "dict" => .ok (.pathDict (structure_dict s))
  | _ => .error (.err "undefined type of return")

/-! ## Diagram rendering: `tree` -/

def spacesStr (n : Nat) : String :=
  String.mk (List.replicate n ' ')

def dashesStr (n : Nat) : String :=
  String.mk (List.replicate n '─')

/-- The four connector glyphs, from the effective indent: `stems[0]`
vertical-continuation, `stems[1]` blank-continuation, `stems[2]`
mid-branch, `stems[3]` last-branch; for an indent above 2 the last
character of the two branch glyphs is replaced by a space. -/
def stems (ti : Int) (k : Nat) : String :=
  let base : String :=
    match k with
    | 0 => "│" ++ spacesStr (ti - 1).toNat
    | 1 => " " ++ spacesStr (ti - 1).toNat
    | 2 => "├" ++ dashesStr (ti - 1).toNat
    | 3 => "└" ++ dashesStr (ti - 1).toNat
    | _ => ""
  if 2 < ti ∧ (k = 2 ∨ k = 3) then base.dropRight 1 ++ " " else base

/-- Python `bool(structure.get(dummy, None))` where the payloads are titles:
`None` is falsy, a string is truthy iff non-empty. -/
def pyTruthyOptStr (o : Option String) : Bool :=
  match o with
  | Option.none => false
  | some s => !(s = "")

/-- The connector chosen for position `i` (value `j`) of a locator: probe
the structure dict at `(*locator[0:i], j+1)`; an inner position draws
vertical- or blank-continuation, the final position mid- or last-branch,
by whether that next-sibling key is present (and truthy). -/
def stemAt (sd : List (List Nat × String)) (ti : Int) (locator : List Nat)
    (i : Nat) (j : Nat) : String :=
  let dummy := locator.take i ++ [j + 1]
  let sib := pyTruthyOptStr (listDictGet sd dummy)
  match (decide (i < locator.length - 1), sib) with
  | (true, true) => stems ti 0
  | (true, false) => stems ti 1
  | (false, true) => stems ti 2
  | (false, false) => stems ti 3

/-- The rendered lines, in the insertion (= pre-order) order of the
structure dict: for each entry, the concatenated connectors followed by
the node's title. -/
def Menu.treeLines (m : Menu) (ti : Int) : List String :=
  let sd := structure_dict m.get_structure_titles
  sd.map (fun p =>
    String.join (p.1.enum.map (fun q => stemAt sd ti p.1 q.1 q.2)) ++ p.2)

/-- Output forms of `tree`. -/
inductive TreeRet where
  | seq (lines : List String)
  | text (s : String)
  deriving DecidableEq, Repr

/-- The body of `tree` after the effective indent has been determined:
build the lines and dispatch on the lowercased `type_of_return`
(`"s"`/`"str"` joins with newlines; anything unrecognized raises the
library `Error`). -/
def Menu.treeWith (m : Menu) (type_of_return : String) (ti : Int) :
    Except PyError TreeRet :=
  let lines := m.treeLines ti
  match strLower type_of_return with
  | "d" | "deque" | "t" | "tuple" | "l" | "list" => .ok (.seq lines)
  | "s" | "str" => .ok (.text (String.intercalate "\n" lines))
  | _ => .error (.err "undefined type of return")

/-- Method `tree(self, *, type_of_return="str", tree_indent=None)`: the effective
indent is the override when it is a positive integer, else the node's own
`tree_indent` (the fallback documented in the method's docstring for
`None` or non-positive overrides). -/
def Menu.tree (m : Menu) (type_of_return : String)
    (tree_indent : Option Int) : Except PyError TreeRet :=
  let ti : Int := match tree_indent with
    | Option.none => m.tree_indent
    | some k => if k ≤ 0 then m.tree_indent else k
  m.treeWith type_of_return ti

/-! ## Plain-data conversion: `export`

`export` iterates over `get_structure(False)` keeping `cursor`, a stack of
*references* into the structure being built: `cursor[k]` (k ≥ 1) is the
`"sub_menus"` list object of the last dict appended to `cursor[k-1]`.  In
this embedding the aliasing is resolved explicitly: a pushed frame starts
as the empty list (the `"sub_menus"` of the dict just appended is `[]` at
push time), and when Python merely *drops* frames (`cursor =
cursor[0:level+1]`) or reads the final result (`cursor[0][0]`), the
dropped frames' contents — which in Python are already visible through
the aliases — are attached into the `"sub_menus"` of the last dict of the
frame below (`popAttach`). -/

/-- Replace the `"sub_menus"` of the last dict of a frame. -/
def setLastSubs (subs : List MenuDict) : List MenuDict → List MenuDict
  | [] => []
  | [.mk t a _] => [.mk t a subs]
  | d :: d' :: ds => d :: setLastSubs subs (d' :: ds)

/-- Resolve the topmost alias: the last frame becomes the `"sub_menus"` of
the last dict of the frame below it. -/
def popAttach : List (List MenuDict) → List (List MenuDict)
  | [] => []
  | [f] => [f]
  | [g, f] => [setLastSubs f g]
  | a :: b :: c :: rest => a :: popAttach (b :: c :: rest)

/-- Python `cursor = cursor[0:n]`, resolving each dropped alias. -/
def truncAttach (n : Nat) (c : List (List MenuDict)) :
    List (List MenuDict) :=
  popAttach^[c.length - n] c

/-- Python `cursor[-1].append(d)`.  (An empty cursor would be a Python
`IndexError`; unreachable, since every iteration of the loop first ensures
a frame exists.) -/
def appendLast (d : MenuDict) : List (List MenuDict) → List (List MenuDict)
  | [] => [[d]]
  | [f] => [f ++ [d]]
  | f :: g :: rest => f :: appendLast d (g :: rest)

/-- Loop state of `export`: the cursor stack and `latest_level`.  (Python's
`latest_level` starts unbound; the first entry has level 0 and that branch
does not read it, so starting at 0 is unobservable.) -/
structure ExpState where
  cursor : List (List MenuDict)
  latest : Nat

/-- One iteration of the `export` loop over a `(level, node)` entry: build
the dict for the node (title, deep-copied attributes — the identity under
value semantics — and empty `"sub_menus"`), adjust the cursor by the
`level` / `latest_level` comparison exactly as the `if/elif` chain does,
and append the dict to the topmost frame. -/
def expStep (st : ExpState) (lv : Nat) (m : Menu) : ExpState :=
  let d : MenuDict := .mk m.title m.attributes []
  let c : List (List MenuDict) :=
    if lv = 0 then st.cursor ++ [[]]
    else if st.latest < lv then st.cursor ++ [[]]
    else if lv < st.latest then truncAttach (lv + 1) st.cursor
    else st.cursor
  ⟨appendLast d c, lv⟩

/-- Method `export(self)`: run the loop over `get_structure(False)` and read
`cursor[0][0]` — with the pending aliases resolved, the single dict left
after collapsing the stack to its base frame. -/
def Menu.export (m : Menu) : MenuDict :=
  let st := m.get_structure.foldl (fun s p => expStep s p.1 p.2) ⟨[], 0⟩
  ((truncAttach 1 st.cursor).headD []).headD (.mk "" [] [])

mutual

/-- The specification's recursive reference for `export`: the record
`{title, attributes (deep copy), sub_menus = exports of the children in
stored order}`. -/
def exportRec : Menu → MenuDict
  | .mk t a subs _ => .mk t a (exportRecL subs)

/-- The map of `exportRec` over a sibling list. -/
def exportRecL : List Menu → List MenuDict
  | [] => []
  | m :: ms => exportRec m :: exportRecL ms

end

/-! ## Plain-data conversion: `instantiate_from_dict` -/

mutual

/-- Classmethod `Menu.instantiate_from_dict(cls, menu_dict)`: when the attribute dict
is non-empty, `element_type_check` validates that all keys are `str` and
all values are in the scalar union (`TypeError` otherwise); the title is
blank-substituted (and `cls(title)` would substitute again — idempotent);
the new node gets the attributes by `dict.update` into a fresh dict, and
each entry of `"sub_menus"` is recursively instantiated and appended via
`add_sub_menu(menu_instance=...)` (a deep copy — the identity here — and a
plain append). -/
def Menu.instantiate_from_dict : MenuDict → Except PyError Menu
  | .mk title attrs subs =>
    if !attrs.isEmpty && !attrs.all (fun p => p.1.isStr) then
      .error (.typeError "menu_dict attributes keys")
    else if !attrs.isEmpty && !attrs.all (fun p => scalarOK p.2) then
      .error (.typeError "menu_dict attributes values")
    else
      let t := if pyBlank title then "untitled" else title
      match instantiateL subs with
      | .error e => .error e
      | .ok children => .ok (.mk t (pyDictUpdateAll [] attrs) children 4)

/-- Recursive instantiation of a `"sub_menus"` list, propagating the first
error. -/
def instantiateL : List MenuDict → Except PyError (List Menu)
  | [] => .ok []
  | d :: ds =>
    match Menu.instantiate_from_dict d with
    | .error e => .error e
    | .ok c =>
      match instantiateL ds with
      | .error e => .error e
      | .ok cs => .ok (c :: cs)

end

/-- No two attribute entries share a key (every list that models an actual
Python dict satisfies this — a Python dict cannot hold a key twice). -/
def nodupKeys : List (PyKey × PyVal) → Bool
  | [] => true
  | p :: rest => rest.all (fun q => !(q.1 == p.1)) && nodupKeys rest

mutual

/-- The state invariant of API-built trees that the round-trip needs: no
blank titles, string attribute keys, scalar attribute values, duplicate-free
attribute lists, recursively. -/
def Menu.wf : Menu → Bool
  | .mk t a subs _ =>
    !pyBlank t && a.all (fun p => p.1.isStr && scalarOK p.2)
      && nodupKeys a && wfL subs

/-- The conjunction of `Menu.wf` over a sibling list. -/
def wfL : List Menu → Bool
  | [] => true
  | m :: ms => m.wf && wfL ms

end

mutual

/-- The tree `instantiate_from_dict` rebuilds from a well-formed tree's
export: identical except every `tree_indent` is the default 4. -/
def reIndent : Menu → Menu
  | .mk t a subs _ => .mk t a (reIndentL subs) 4

/-- The map of `reIndent` over a sibling list. -/
def reIndentL : List Menu → List Menu
  | [] => []
  | m :: ms => reIndent m :: reIndentL ms

end

/-! ## `get_structure` is the pre-order traversal (C2) -/

theorem structLoop_nil : structLoop [] = [] := by
  simp [structLoop]

theorem structLoop_cons (l : Nat) (m : Menu) (rest : List (Nat × Menu)) :
    structLoop ((l, m) :: rest)
      = (l, m) :: structLoop (m.sub_menus.map (fun c => (l + 1, c)) ++ rest) := by
  simp [structLoop]

theorem flatL_nil (l : Nat) : flatL l [] = [] := by
  simp [flatL]

theorem flatL_cons (l : Nat) (m : Menu) (ms : List Menu) :
    flatL l (m :: ms) = (l, m) :: (flatL (l + 1) m.sub_menus ++ flatL l ms) := by
  simp [flatL]

/-- The work-list loop of `get_structure` expands a block of same-level
entries to the pre-order of those subtrees, followed by the rest. -/
theorem structLoop_flat (n : Nat) :
    ∀ ms rest l, sizeL ms ≤ n →
      structLoop (ms.map (fun c => (l, c)) ++ rest)
        = flatL l ms ++ structLoop rest := by
  induction n with
  | zero =>
    intro ms rest l h
    cases ms with
    | nil => simp [flatL_nil]
    | cons m ms' =>
      exfalso
      have := Menu.size_pos m
      simp [sizeL] at h
      omega
  | succ n ih =>
    intro ms rest l h
    cases ms with
    | nil => simp [flatL_nil]
    | cons m ms' =>
      have h1 : sizeL m.sub_menus ≤ n := by
        have := Menu.size_eq m
        simp [sizeL] at h
        omega
      have h2 : sizeL ms' ≤ n := by
        have := Menu.size_pos m
        simp [sizeL] at h
        omega
      calc structLoop (((m :: ms').map (fun c => (l, c))) ++ rest)
          = (l, m) :: structLoop (m.sub_menus.map (fun c => (l + 1, c))
              ++ (ms'.map (fun c => (l, c)) ++ rest)) := by
            simp [structLoop_cons]
        _ = (l, m) :: (flatL (l + 1) m.sub_menus
              ++ structLoop (ms'.map (fun c => (l, c)) ++ rest)) := by
            rw [ih _ _ _ h1]
        _ = (l, m) :: (flatL (l + 1) m.sub_menus ++ (flatL l ms' ++ structLoop rest)) := by
            rw [ih _ _ _ h2]
        _ = flatL l (m :: ms') ++ structLoop rest := by
            simp [flatL_cons]

/-- Loop `get_structure` produces exactly the recursive pre-order. -/
theorem get_structure_eq_preorder (m : Menu) : m.get_structure = m.preorder := by
  have h := structLoop_flat (sizeL [m]) [m] [] 0 le_rfl
  simpa [Menu.get_structure, Menu.preorder, structLoop_nil] using h

/-- C2: `get_structure` enumerates the subtree in pre-order depth-first
order: it equals the recursive pre-order (`flatL` lists each node, then its
whole subtree, then the next sibling, siblings in stored order), the root
is the first entry, and for a root with children A (A having one child A1)
then B the enumeration order is [root, A, A1, B]. -/
theorem C2_preorder_linearization :
    (∀ m : Menu, m.get_structure = m.preorder) ∧
    (∀ m : Menu, m.get_structure.head? = some (0, m)) ∧
    ((Menu.get_structure_titles
        (.mk "root" [] [.mk "A" [] [.mk "A1" [] [] 4] 4, .mk "B" [] [] 4] 4)).map
          Prod.snd
      = ["root", "A", "A1", "B"]) := by
  refine ⟨get_structure_eq_preorder, ?_, ?_⟩
  · intro m
    rw [get_structure_eq_preorder]
    simp [Menu.preorder, flatL_cons]
  · simp [Menu.get_structure_titles, Menu.get_structure, structLoop_cons,
      structLoop_nil, Menu.sub_menus, Menu.title]

/-! ## The iterative `export` equals the recursive reference (C4) -/

/-- Fully collapse a pending chain of frames into a frame: `chainColl F D`
is `F` with the deeper pending frames `D` (each the `"sub_menus"` alias of
the last dict of the frame below it) attached. -/
def chainColl (F : List MenuDict) : List (List MenuDict) → List MenuDict
  | [] => F
  | G :: D => setLastSubs (chainColl G D) F

/-- Run the `export` loop over a list of `(level, node)` items. -/
def runE (st : ExpState) (items : List (Nat × Menu)) : ExpState :=
  items.foldl (fun s p => expStep s p.1 p.2) st

theorem runE_nil (st : ExpState) : runE st [] = st := rfl

theorem runE_cons (st : ExpState) (l : Nat) (m : Menu)
    (items : List (Nat × Menu)) :
    runE st ((l, m) :: items) = runE (expStep st l m) items := rfl

theorem runE_append (st : ExpState) (a b : List (Nat × Menu)) :
    runE st (a ++ b) = runE (runE st a) b := by
  simp [runE]

theorem setLastSubs_cons_of (subs : List MenuDict) (d : MenuDict)
    (l : List MenuDict) (h : l ≠ []) :
    setLastSubs subs (d :: l) = d :: setLastSubs subs l := by
  match l with
  | [] => exact absurd rfl h
  | d' :: ds => simp [setLastSubs]

theorem setLastSubs_append (X : List MenuDict) (t : String)
    (a : List (PyKey × PyVal)) (s0 subs : List MenuDict) :
    setLastSubs subs (X ++ [.mk t a s0]) = X ++ [MenuDict.mk t a subs] := by
  induction X with
  | nil => simp [setLastSubs]
  | cons d X ih =>
    rw [List.cons_append, setLastSubs_cons_of _ _ _ (by simp), ih]
    simp

theorem popAttach_cons_of (a : List MenuDict) (l : List (List MenuDict))
    (h : 2 ≤ l.length) :
    popAttach (a :: l) = a :: popAttach l := by
  match l with
  | [] => simp at h
  | [b] => simp at h
  | b :: c :: rest => simp [popAttach]

theorem popAttach_append (X : List (List MenuDict)) (g f : List MenuDict) :
    popAttach (X ++ [g, f]) = X ++ [setLastSubs f g] := by
  induction X with
  | nil => simp [popAttach]
  | cons a X ih =>
    rw [List.cons_append, popAttach_cons_of _ _ (by simp), ih]
    simp

theorem appendLast_cons_of (d : MenuDict) (f : List MenuDict)
    (l : List (List MenuDict)) (h : l ≠ []) :
    appendLast d (f :: l) = f :: appendLast d l := by
  match l with
  | [] => exact absurd rfl h
  | g :: rest => simp [appendLast]

theorem appendLast_append (X : List (List MenuDict)) (F : List MenuDict)
    (d : MenuDict) :
    appendLast d (X ++ [F]) = X ++ [F ++ [d]] := by
  induction X with
  | nil => simp [appendLast]
  | cons a X ih =>
    rw [List.cons_append, appendLast_cons_of _ _ _ (by simp), ih]
    simp

theorem popAttach_iterate_chain (D : List (List MenuDict)) :
    ∀ (X : List (List MenuDict)) (F : List MenuDict),
      popAttach^[D.length] (X ++ F :: D) = X ++ [chainColl F D] := by
  induction D with
  | nil =>
    intro X F
    simp [chainColl]
  | cons G D' ih =>
    intro X F
    rw [List.length_cons, Function.iterate_succ']
    show popAttach (popAttach^[D'.length] (X ++ F :: G :: D')) = _
    rw [show X ++ F :: G :: D' = (X ++ [F]) ++ G :: D' by simp]
    rw [ih (X ++ [F]) G]
    rw [show (X ++ [F]) ++ [chainColl G D'] = X ++ [F, chainColl G D'] by simp]
    rw [popAttach_append]
    simp [chainColl]

theorem truncAttach_chain (X : List (List MenuDict)) (F : List MenuDict)
    (D : List (List MenuDict)) :
    truncAttach (X.length + 1) (X ++ F :: D) = X ++ [chainColl F D] := by
  unfold truncAttach
  have hlen : (X ++ F :: D).length - (X.length + 1) = D.length := by
    simp
    omega
  rw [hlen, popAttach_iterate_chain]

theorem exportRecL_nil : exportRecL [] = [] := by
  simp [exportRecL]

theorem exportRecL_cons (m : Menu) (ms : List Menu) :
    exportRecL (m :: ms) = exportRec m :: exportRecL ms := by
  simp [exportRecL]

theorem exportRec_def (m : Menu) :
    exportRec m = .mk m.title m.attributes (exportRecL m.sub_menus) := by
  cases m
  simp [exportRec, Menu.title, Menu.attributes, Menu.sub_menus]

/-- Entering a deeper level (`level > latest_level`): push a fresh frame
(the alias of the just-appended dict's empty `"sub_menus"`) and append the
new dict to it. -/
theorem expStep_push (C : List (List MenuDict)) (E : List MenuDict) (l : Nat)
    (m : Menu) :
    expStep ⟨C ++ [E], l⟩ (l + 1) m
      = ⟨(C ++ [E]) ++ [[MenuDict.mk m.title m.attributes []]], l + 1⟩ := by
  simp only [expStep]
  rw [if_neg (by omega), if_pos (by omega)]
  rw [show (C ++ [E]) ++ [[]] = (C ++ [E] ++ [([] : List MenuDict)]) by simp]
  rw [appendLast_append]
  simp

/-- Landing on a level at or above `latest_level` with the frame for that
level present: resolve any deeper pending frames into it
(`cursor = cursor[0:level+1]` plus the aliasing) and append the new dict. -/
theorem expStep_sibling (C : List (List MenuDict)) (E F : List MenuDict)
    (D : List (List MenuDict)) (l : Nat) (hC : C.length = l) (m : Menu) :
    expStep ⟨(C ++ [E]) ++ F :: D, l + 1 + D.length⟩ (l + 1) m
      = ⟨(C ++ [E]) ++ [chainColl F D ++ [MenuDict.mk m.title m.attributes []]],
         l + 1⟩ := by
  cases D with
  | nil =>
    simp only [expStep, List.length_nil, Nat.add_zero]
    rw [if_neg (by omega), if_neg (by omega), if_neg (by omega)]
    rw [appendLast_append]
    simp [chainColl]
  | cons G D' =>
    simp only [expStep, List.length_cons]
    rw [if_neg (by omega), if_neg (by omega), if_pos (by omega)]
    have htr : truncAttach (l + 1 + 1) ((C ++ [E]) ++ F :: (G :: D'))
        = (C ++ [E]) ++ [chainColl F (G :: D')] := by
      have h := truncAttach_chain (C ++ [E]) F (G :: D')
      have hlen : (C ++ [E]).length + 1 = l + 1 + 1 := by simp [hC]
      rw [hlen] at h
      exact h
    rw [htr, appendLast_append]

/-- Joint invariant of the `export` loop over the pre-order items of a
sibling list `ms` at level `l+1`, given `l+1` frames `C ++ [E]` for the
ancestor levels.  First part: no frame for level `l+1` exists yet (the
previous item was the parent, at level `l`); the run leaves the ancestor
frames untouched and deposits a pending chain whose collapse is
`exportRecL ms`.  Second part: a frame `F` for level `l+1` with pending
deeper chain `D` already exists; the run extends its collapse by
`exportRecL ms`. -/
theorem runE_flat (n : Nat) : ∀ ms, sizeL ms ≤ n →
    (∀ (C : List (List MenuDict)) (E : List MenuDict) (l : Nat),
      C.length = l → E ≠ [] →
      (ms = [] ∧ runE ⟨C ++ [E], l⟩ (flatL (l + 1) ms) = ⟨C ++ [E], l⟩) ∨
      (∃ F D, F ≠ [] ∧
        runE ⟨C ++ [E], l⟩ (flatL (l + 1) ms)
          = ⟨(C ++ [E]) ++ F :: D, l + 1 + D.length⟩ ∧
        chainColl F D = exportRecL ms)) ∧
    (∀ (C : List (List MenuDict)) (E F : List MenuDict)
       (D : List (List MenuDict)) (l : Nat),
      C.length = l → F ≠ [] →
      ∃ F' D', F' ≠ [] ∧
        runE ⟨(C ++ [E]) ++ F :: D, l + 1 + D.length⟩ (flatL (l + 1) ms)
          = ⟨(C ++ [E]) ++ F' :: D', l + 1 + D'.length⟩ ∧
        chainColl F' D' = chainColl F D ++ exportRecL ms) := by
  induction n with
  | zero =>
    intro ms h
    have hms : ms = [] := by
      cases ms with
      | nil => rfl
      | cons m ms' =>
        exfalso
        have := Menu.size_pos m
        simp [sizeL] at h
        omega
    subst hms
    constructor
    · intro C E l hC hE
      left
      exact ⟨rfl, by simp [flatL_nil, runE_nil]⟩
    · intro C E F D l hC hF
      exact ⟨F, D, hF, by simp [flatL_nil, runE_nil], by simp [exportRecL_nil]⟩
  | succ n ih =>
    intro ms h
    cases ms with
    | nil =>
      constructor
      · intro C E l hC hE
        left
        exact ⟨rfl, by simp [flatL_nil, runE_nil]⟩
      · intro C E F D l hC hF
        exact ⟨F, D, hF, by simp [flatL_nil, runE_nil], by simp [exportRecL_nil]⟩
    | cons m ms' =>
      have hsub : sizeL m.sub_menus ≤ n := by
        have := Menu.size_eq m
        simp [sizeL] at h
        omega
      have hms' : sizeL ms' ≤ n := by
        have := Menu.size_pos m
        simp [sizeL] at h
        omega
      constructor
      · -- part 1: entering level l+1 for the first time
        intro C E l hC hE
        right
        rw [flatL_cons, runE_cons, expStep_push, runE_append]
        -- process the children of m
        rcases (ih m.sub_menus hsub).1 (C ++ [E])
            [MenuDict.mk m.title m.attributes []] (l + 1)
            (by simp [hC]) (by simp) with
          ⟨hnil, hrun⟩ | ⟨F₂, D₂, hF₂, hrun, hcoll⟩
        · -- m has no children
          rw [hrun]
          rcases (ih ms' hms').2 C E [MenuDict.mk m.title m.attributes []]
              [] l hC (by simp) with ⟨F', D', hF', hrun', hcoll'⟩
          refine ⟨F', D', hF', ?_, ?_⟩
          · simpa using hrun'
          · rw [hcoll']
            simp [chainColl, exportRecL_cons, exportRec_def, hnil,
              exportRecL_nil]
        · -- m has children: its frame now carries a pending chain
          rw [hrun]
          have hre : ((C ++ [E]) ++ [[MenuDict.mk m.title m.attributes []]])
                ++ F₂ :: D₂
              = (C ++ [E]) ++ [MenuDict.mk m.title m.attributes []]
                :: (F₂ :: D₂) := by
            simp
          have hlen : l + 1 + 1 + D₂.length = l + 1 + (F₂ :: D₂).length := by
            simp
            omega
          rw [hre, hlen]
          rcases (ih ms' hms').2 C E [MenuDict.mk m.title m.attributes []]
              (F₂ :: D₂) l hC (by simp) with ⟨F', D', hF', hrun', hcoll'⟩
          refine ⟨F', D', hF', hrun', ?_⟩
          rw [hcoll']
          have : chainColl [MenuDict.mk m.title m.attributes []] (F₂ :: D₂)
              = [exportRec m] := by
            simp only [chainColl]
            rw [hcoll]
            have := setLastSubs_append [] m.title m.attributes []
              (exportRecL m.sub_menus)
            simp at this
            rw [this, exportRec_def]
          rw [this, exportRecL_cons]
          simp
      · -- part 2: a frame for level l+1 already exists
        intro C E F D l hC hF
        rw [flatL_cons, runE_cons, expStep_sibling C E F D l hC, runE_append]
        rcases (ih m.sub_menus hsub).1 (C ++ [E])
            (chainColl F D ++ [MenuDict.mk m.title m.attributes []]) (l + 1)
            (by simp [hC]) (by simp) with
          ⟨hnil, hrun⟩ | ⟨F₂, D₂, hF₂, hrun, hcoll⟩
        · rw [hrun]
          rcases (ih ms' hms').2 C E
              (chainColl F D ++ [MenuDict.mk m.title m.attributes []]) [] l
              hC (by simp) with ⟨F', D', hF', hrun', hcoll'⟩
          refine ⟨F', D', hF', ?_, ?_⟩
          · simpa using hrun'
          · rw [hcoll']
            simp [chainColl, exportRecL_cons, exportRec_def, hnil,
              exportRecL_nil]
        · rw [hrun]
          have hre : ((C ++ [E])
                ++ [chainColl F D ++ [MenuDict.mk m.title m.attributes []]])
                ++ F₂ :: D₂
              = (C ++ [E]) ++ (chainColl F D
                ++ [MenuDict.mk m.title m.attributes []]) :: (F₂ :: D₂) := by
            simp
          have hlen : l + 1 + 1 + D₂.length = l + 1 + (F₂ :: D₂).length := by
            simp
            omega
          rw [hre, hlen]
          rcases (ih ms' hms').2 C E
              (chainColl F D ++ [MenuDict.mk m.title m.attributes []])
              (F₂ :: D₂) l hC (by simp) with ⟨F', D', hF', hrun', hcoll'⟩
          refine ⟨F', D', hF', hrun', ?_⟩
          rw [hcoll']
          have : chainColl
                (chainColl F D ++ [MenuDict.mk m.title m.attributes []])
                (F₂ :: D₂)
              = chainColl F D ++ [exportRec m] := by
            simp only [chainColl]
            rw [hcoll]
            rw [setLastSubs_append (chainColl F D) m.title m.attributes []
              (exportRecL m.sub_menus)]
            rw [exportRec_def]
          rw [this, exportRecL_cons]
          simp

theorem get_structure_cons (m : Menu) :
    m.get_structure = (0, m) :: flatL 1 m.sub_menus := by
  rw [get_structure_eq_preorder]
  simp [Menu.preorder, flatL_cons, flatL_nil]

/-- The iterative, cursor-based `export` agrees with the recursive
reference `exportRec` on every tree. -/
theorem export_eq_exportRec (m : Menu) : m.export = exportRec m := by
  have hfold : Menu.export m
      = ((truncAttach 1 (runE ⟨[], 0⟩ m.get_structure).cursor).headD []).headD
          (.mk "" [] []) := rfl
  rw [hfold, get_structure_cons, runE_cons]
  have hstep : expStep ⟨[], 0⟩ 0 m
      = ⟨[[MenuDict.mk m.title m.attributes []]], 0⟩ := by
    simp [expStep, appendLast]
  rw [hstep]
  rcases (runE_flat (sizeL m.sub_menus) m.sub_menus le_rfl).1 []
      [MenuDict.mk m.title m.attributes []] 0 rfl (by simp) with
    ⟨hnil, hrun⟩ | ⟨F, D, hF, hrun, hcoll⟩
  · simp only [List.nil_append, Nat.zero_add] at hrun
    rw [hrun]
    simp [truncAttach, exportRec_def, hnil, exportRecL_nil]
  · simp only [List.nil_append, Nat.zero_add] at hrun
    rw [hrun]
    have htr : truncAttach 1
        ([[MenuDict.mk m.title m.attributes []]] ++ F :: D)
        = [chainColl [MenuDict.mk m.title m.attributes []] (F :: D)] := by
      have h := truncAttach_chain [] [MenuDict.mk m.title m.attributes []]
        (F :: D)
      simpa using h
    simp only [ExpState.mk.injEq] at htr ⊢
    rw [htr]
    have : chainColl [MenuDict.mk m.title m.attributes []] (F :: D)
        = [exportRec m] := by
      simp only [chainColl]
      rw [hcoll]
      have h2 := setLastSubs_append [] m.title m.attributes []
        (exportRecL m.sub_menus)
      simp at h2
      rw [h2, exportRec_def]
    rw [this]
    simp

/-- C4: the iterative, level-cursor-based `export` equals the recursive
reference definition: the record of the node's title, (a copy of) its
attributes, and the exports of its children in stored order. -/
theorem C4_export_refinement :
    ∀ m : Menu, m.export = exportRec m ∧
      m.export = .mk m.title m.attributes (exportRecL m.sub_menus) := by
  intro m
  exact ⟨export_eq_exportRec m, by rw [export_eq_exportRec m, exportRec_def]⟩

/-! ## Round-trip through `export` / `instantiate_from_dict` (C1) -/

theorem pyDictUpdate_fresh (d : List (PyKey × PyVal)) (k : PyKey) (v : PyVal)
    (h : ∀ p ∈ d, p.1 ≠ k) :
    pyDictUpdate d k v = d ++ [(k, v)] := by
  unfold pyDictUpdate
  rw [if_neg]
  simp only [List.any_eq_true, decide_eq_true_eq, not_exists]
  intro p hpk
  exact h p hpk.1 hpk.2

theorem nodupKeys_cons (q : PyKey × PyVal) (rest : List (PyKey × PyVal))
    (h : nodupKeys (q :: rest) = true) :
    (∀ r ∈ rest, r.1 ≠ q.1) ∧ nodupKeys rest = true := by
  simp only [nodupKeys, Bool.and_eq_true, List.all_eq_true] at h
  refine ⟨fun r hr => ?_, h.2⟩
  have := h.1 r hr
  simpa using this

theorem pyDictUpdateAll_fresh :
    ∀ (kvs d : List (PyKey × PyVal)),
      (∀ p ∈ d, ∀ q ∈ kvs, p.1 ≠ q.1) → nodupKeys kvs = true →
      pyDictUpdateAll d kvs = d ++ kvs := by
  intro kvs
  induction kvs with
  | nil =>
    intro d _ _
    simp [pyDictUpdateAll]
  | cons q kvs ih =>
    intro d hdisj hnd
    obtain ⟨hq, hnd'⟩ := nodupKeys_cons q kvs hnd
    have hstep : pyDictUpdateAll d (q :: kvs)
        = pyDictUpdateAll (pyDictUpdate d q.1 q.2) kvs := rfl
    rw [hstep, pyDictUpdate_fresh d q.1 q.2
      (fun p hp => hdisj p hp q (by simp))]
    rw [ih (d ++ [(q.1, q.2)]) ?_ hnd']
    · simp
    · intro p hp r hr
      rcases List.mem_append.mp hp with hcase | hcase
      · exact hdisj p hcase r (by simp [hr])
      · simp at hcase
        subst hcase
        exact fun he => hq r hr he.symm

/-- On a duplicate-free mapping, `update` into a fresh dict is the
identity (the attribute copy inside `instantiate_from_dict`). -/
theorem pyDictUpdateAll_nil_nodup (a : List (PyKey × PyVal))
    (h : nodupKeys a = true) :
    pyDictUpdateAll [] a = a := by
  have := pyDictUpdateAll_fresh a [] (by simp) h
  simpa using this

theorem wf_parts (t : String) (a : List (PyKey × PyVal)) (subs : List Menu)
    (ti : Int) (h : Menu.wf (.mk t a subs ti) = true) :
    pyBlank t = false ∧ a.all (fun p => p.1.isStr) = true ∧
      a.all (fun p => scalarOK p.2) = true ∧ nodupKeys a = true ∧
      wfL subs = true := by
  simp only [Menu.wf, Bool.and_eq_true, Bool.not_eq_true'] at h
  obtain ⟨⟨⟨hb, hall⟩, hnd⟩, hsubs⟩ := h
  simp only [List.all_eq_true, Bool.and_eq_true] at hall
  refine ⟨hb, ?_, ?_, hnd, hsubs⟩
  · simp only [List.all_eq_true]
    exact fun p hp => (hall p hp).1
  · simp only [List.all_eq_true]
    exact fun p hp => (hall p hp).2

/-- Reconstruction inverts the recursive export on well-formed trees, up
to resetting every `tree_indent` to the default. -/
theorem instantiate_exportRec (n : Nat) :
    (∀ m : Menu, m.size ≤ n → m.wf = true →
      Menu.instantiate_from_dict (exportRec m) = .ok (reIndent m)) ∧
    (∀ ms : List Menu, sizeL ms ≤ n → wfL ms = true →
      instantiateL (exportRecL ms) = .ok (reIndentL ms)) := by
  induction n with
  | zero =>
    constructor
    · intro m hsz _
      exfalso
      have := Menu.size_pos m
      omega
    · intro ms hsz _
      cases ms with
      | nil => simp [exportRecL_nil, instantiateL, reIndentL]
      | cons m ms' =>
        exfalso
        have := Menu.size_pos m
        simp [sizeL] at hsz
        omega
  | succ n ih =>
    have hmenu : ∀ m : Menu, m.size ≤ n + 1 → m.wf = true →
        Menu.instantiate_from_dict (exportRec m) = .ok (reIndent m) := by
      intro m hsz hwf
      cases m with
      | mk t a subs ti =>
        obtain ⟨hb, hkeys, hvals, hnd, hsubs⟩ := wf_parts t a subs ti hwf
        have hsz' : sizeL subs ≤ n := by
          have := Menu.size_eq (Menu.mk t a subs ti)
          simp [Menu.sub_menus] at this
          omega
        have hrec := ih.2 subs hsz' hsubs
        have hexp : exportRec (Menu.mk t a subs ti)
            = .mk t a (exportRecL subs) := by
          simp [exportRec_def, Menu.title, Menu.attributes, Menu.sub_menus]
        rw [hexp]
        simp only [Menu.instantiate_from_dict, hkeys, hvals, hb,
          Bool.not_true, Bool.and_false, Bool.false_eq_true, if_false,
          Bool.if_false_right]
        rw [hrec]
        simp only [hb, Bool.false_eq_true, if_false]
        rw [pyDictUpdateAll_nil_nodup a hnd]
        simp [reIndent]
    constructor
    · exact hmenu
    · intro ms hsz hwf
      cases ms with
      | nil => simp [exportRecL_nil, instantiateL, reIndentL]
      | cons m ms' =>
        have hm : m.size ≤ n + 1 := by
          simp [sizeL] at hsz
          omega
        have hms' : sizeL ms' ≤ n := by
          have := Menu.size_pos m
          simp [sizeL] at hsz
          omega
        simp only [wfL, Bool.and_eq_true] at hwf
        rw [exportRecL_cons]
        simp only [instantiateL]
        rw [hmenu m hm hwf.1, ih.2 ms' hms' hwf.2]
        simp [reIndentL]

theorem exportRec_reIndent (n : Nat) :
    (∀ m : Menu, m.size ≤ n → exportRec (reIndent m) = exportRec m) ∧
    (∀ ms : List Menu, sizeL ms ≤ n →
      exportRecL (reIndentL ms) = exportRecL ms) := by
  induction n with
  | zero =>
    constructor
    · intro m hsz
      exfalso
      have := Menu.size_pos m
      omega
    · intro ms hsz
      cases ms with
      | nil => simp [reIndentL]
      | cons m ms' =>
        exfalso
        have := Menu.size_pos m
        simp [sizeL] at hsz
        omega
  | succ n ih =>
    have hmenu : ∀ m : Menu, m.size ≤ n + 1 →
        exportRec (reIndent m) = exportRec m := by
      intro m hsz
      cases m with
      | mk t a subs ti =>
        have hsz' : sizeL subs ≤ n := by
          have := Menu.size_eq (Menu.mk t a subs ti)
          simp [Menu.sub_menus] at this
          omega
        simp only [reIndent]
        rw [exportRec_def, exportRec_def]
        simp only [Menu.title, Menu.attributes, Menu.sub_menus]
        rw [ih.2 subs hsz']
    constructor
    · exact hmenu
    · intro ms hsz
      cases ms with
      | nil => simp [reIndentL]
      | cons m ms' =>
        have hm : m.size ≤ n + 1 := by
          simp [sizeL] at hsz
          omega
        have hms' : sizeL ms' ≤ n := by
          have := Menu.size_pos m
          simp [sizeL] at hsz
          omega
        simp only [reIndentL]
        rw [exportRecL_cons, exportRecL_cons, hmenu m hm, ih.2 ms' hms']

/-- C1 (counterexample): the claim fails for a tree built via the public
mutation API.  The `attributes` property setter validates only the values,
so `menu.attributes = {1: "x"}` succeeds and stores the non-string key `1`;
`instantiate_from_dict` then rejects `export()` of that tree
(`element_type_check(attributes.keys(), str)` raises `TypeError`), so no
reconstructed tree is produced at all. -/
theorem C1_roundtrip_counterexample :
    (Menu.set_attributes (Menu.init (some "t")) [(.int 1, .str "x")]).1
        = .ok () ∧
    (Menu.set_attributes (Menu.init (some "t")) [(.int 1, .str "x")]).2
        = .mk "t" [(.int 1, .str "x")] [] 4 ∧
    Menu.instantiate_from_dict
        (Menu.export (Menu.mk "t" [(.int 1, .str "x")] [] 4))
      = .error (.typeError "menu_dict attributes keys") := by
  refine ⟨by rfl, by rfl, ?_⟩
  rw [export_eq_exportRec]
  simp [exportRec_def, exportRecL_nil, Menu.title, Menu.attributes,
    Menu.sub_menus, Menu.instantiate_from_dict, PyKey.isStr]

/-- C1 (amended): for every tree whose titles are non-blank and whose
attribute mappings have string keys, Scalar values and duplicate-free keys
(`Menu.wf` — as holds for any tree built via the public mutation API
unless a non-string-keyed mapping is passed to the `attributes` setter),
`instantiate_from_dict (export tree)` succeeds and the reconstructed
tree's `export()` is structurally equal to the original's `export()`. -/
theorem C1_roundtrip (m : Menu) (h : m.wf = true) :
    ∃ m' : Menu, Menu.instantiate_from_dict m.export = .ok m' ∧
      m'.export = m.export := by
  refine ⟨reIndent m, ?_, ?_⟩
  · rw [export_eq_exportRec]
    exact (instantiate_exportRec m.size).1 m le_rfl h
  · rw [export_eq_exportRec, export_eq_exportRec]
    exact (exportRec_reIndent m.size).1 m le_rfl

/-- Witness for C1: a concrete two-node tree with a string-keyed attribute
satisfies `Menu.wf` and round-trips. -/
theorem C1_roundtrip_witness :
    Menu.wf (.mk "R" [(.str "k", .int 1)] [.mk "A" [] [] 4] 4) = true ∧
    ∃ m' : Menu,
      Menu.instantiate_from_dict
          (Menu.export (.mk "R" [(.str "k", .int 1)] [.mk "A" [] [] 4] 4))
        = .ok m' ∧
      m'.export = Menu.export (.mk "R" [(.str "k", .int 1)] [.mk "A" [] [] 4] 4) := by
  have hwf : Menu.wf (.mk "R" [(.str "k", .int 1)] [.mk "A" [] [] 4] 4) = true := by
    simp [Menu.wf, wfL, nodupKeys, pyBlank, PyKey.isStr, scalarOK]
  exact ⟨hwf, C1_roundtrip _ hwf⟩

/-! ## Diagram rendering (C3) and the indent override (C6) -/

theorem spacesStr_succ (n : Nat) :
    " " ++ spacesStr n = spacesStr (n + 1) := by
  simp [spacesStr, List.replicate]
  rfl

/-- Pre-order titles of the worked example: root "R" with children "A"
(childless) and "B" (one child "C"). -/
theorem exampleRABC_titles :
    Menu.get_structure_titles
        (.mk "R" [] [.mk "A" [] [] 4, .mk "B" [] [.mk "C" [] [] 4] 4] 4)
      = [(0, "R"), (1, "A"), (1, "B"), (2, "C")] := by
  simp [Menu.get_structure_titles, Menu.get_structure, structLoop_cons,
    structLoop_nil, Menu.sub_menus, Menu.title]

/-- C3 (counterexample): with indent 2 the blank-continuation glyph is two
spaces (`" " + " " * (2-1)`), so the line for "C" is `"  └─C"`; the four
lines the claim lists end with `"   └─C"` (three spaces), which is not
what `tree` renders. -/
theorem C3_diagram_counterexample :
    Menu.treeLines
        (.mk "R" [] [.mk "A" [] [] 4, .mk "B" [] [.mk "C" [] [] 4] 4] 4) 2
      = ["R", "├─A", "└─B", "  └─C"] ∧
    Menu.treeLines
        (.mk "R" [] [.mk "A" [] [] 4, .mk "B" [] [.mk "C" [] [] 4] 4] 4) 2
      ≠ ["R", "├─A", "└─B", "   └─C"] := by
  have h : Menu.treeLines
      (.mk "R" [] [.mk "A" [] [] 4, .mk "B" [] [.mk "C" [] [] 4] 4] 4) 2
      = ["R", "├─A", "└─B", "  └─C"] := by
    rw [Menu.treeLines, exampleRABC_titles]
    rfl
  refine ⟨h, ?_⟩
  rw [h]
  decide

/-- C3 (amended): the four connector glyphs are derived from the
effective indent `n` exactly as described (vertical-continuation `│` plus
`n-1` spaces, blank-continuation `n` spaces — i.e. a space plus `n-1`
spaces —, mid-branch `├` plus `n-1` dashes, last-branch `└` plus `n-1`
dashes, the last character of the two branch glyphs replaced by a space
when `n > 2`); and for the root "R" with children "A" (no grandchildren)
and "B" (one child "C"), rendering with indent 2 produces exactly the
lines "R", "├─A", "└─B", "  └─C" (the blank-continuation before the final
last-branch being two spaces, not three). -/
theorem C3_diagram :
    (∀ ti : Int,
      stems ti 0 = "│" ++ spacesStr (ti - 1).toNat ∧
      stems ti 1 = " " ++ spacesStr (ti - 1).toNat ∧
      stems ti 2 = (if 2 < ti then
          ("├" ++ dashesStr (ti - 1).toNat).dropRight 1 ++ " "
        else "├" ++ dashesStr (ti - 1).toNat) ∧
      stems ti 3 = (if 2 < ti then
          ("└" ++ dashesStr (ti - 1).toNat).dropRight 1 ++ " "
        else "└" ++ dashesStr (ti - 1).toNat)) ∧
    (∀ n : Nat, " " ++ spacesStr n = spacesStr (n + 1)) ∧
    Menu.tree (.mk "R" [] [.mk "A" [] [] 4, .mk "B" [] [.mk "C" [] [] 4] 4] 4)
        "list" (some 2)
      = .ok (.seq ["R", "├─A", "└─B", "  └─C"]) := by
  refine ⟨?_, spacesStr_succ, ?_⟩
  · intro ti
    refine ⟨by simp [stems], by simp [stems], ?_, ?_⟩
    · by_cases h : 2 < ti <;> simp [stems, h]
    · by_cases h : 2 < ti <;> simp [stems, h]
  · rw [Menu.tree, Menu.treeWith, Menu.treeLines, exampleRABC_titles]
    rfl

/-- C6 (counterexample): a non-positive indent override does not raise —
`tree` silently falls back to the node's stored indent (exactly as the
method's docstring documents), so the call with override 0 succeeds and
agrees with the call with no override. -/
theorem C6_indent_override_counterexample :
    Menu.tree (.mk "R" [] [] 4) "str" (some 0) = .ok (.text "R") ∧
    Menu.tree (.mk "R" [] [] 4) "str" (some 0)
      = Menu.tree (.mk "R" [] [] 4) "str" Option.none := by
  have hgs : Menu.get_structure_titles (.mk "R" [] [] 4) = [(0, "R")] := by
    simp [Menu.get_structure_titles, Menu.get_structure, structLoop_cons,
      structLoop_nil, Menu.sub_menus, Menu.title]
  constructor
  · rw [Menu.tree, Menu.treeWith, Menu.treeLines, hgs]
    rfl
  · rfl

/-- C6 (amended): a positive integer override is used as the effective
indent; with no override the node's own stored `tree_indent` is used; an
override that is supplied but not positive does not fail — the call falls
back to the node's stored indent (the `tree_indent` property *setter* is
what raises for a non-positive value, before any mutation). -/
theorem C6_indent_override :
    (∀ (m : Menu) (tor : String) (k : Int), 0 < k →
      m.tree tor (some k) = m.treeWith tor k) ∧
    (∀ (m : Menu) (tor : String),
      m.tree tor Option.none = m.treeWith tor m.tree_indent) ∧
    (∀ (m : Menu) (tor : String) (k : Int), k ≤ 0 →
      m.tree tor (some k) = m.tree tor Option.none) ∧
    (∀ (m : Menu) (k : Int),
      m.set_tree_indent k = if k ≤ 0 then
          (.error (.err "argument 'tree_indent' must be greater than 0"), m)
        else (.ok (), .mk m.title m.attributes m.sub_menus k)) := by
  refine ⟨?_, ?_, ?_, ?_⟩
  · intro m tor k hk
    simp [Menu.tree, show ¬ k ≤ 0 by omega]
  · intro m tor
    simp [Menu.tree]
  · intro m tor k hk
    simp [Menu.tree, hk]
  · intro m k
    simp [Menu.set_tree_indent]

/-- Witness for C6: the amended behaviour at a concrete node and indent. -/
theorem C6_indent_override_witness :
    ((0 : Int) < 2 ∧
      Menu.tree (.mk "R" [] [] 4) "list" (some 2)
        = Menu.treeWith (.mk "R" [] [] 4) "list" 2) ∧
    ((0 : Int) ≥ 0 ∧
      Menu.tree (.mk "R" [] [] 4) "list" (some 0)
        = Menu.tree (.mk "R" [] [] 4) "list" Option.none) := by
  constructor
  · exact ⟨by decide, C6_indent_override.1 (.mk "R" [] [] 4) "list" 2 (by decide)⟩
  · exact ⟨by decide,
      C6_indent_override.2.2.1 (.mk "R" [] [] 4) "list" 0 (by decide)⟩

/-! ## `del_attributes` (C7) -/

/-- Popping the argument keys one by one removes exactly the entries whose
key is among the arguments (popping an absent key is a no-op). -/
theorem foldl_pyDictPop (args : List PyKey) :
    ∀ d : List (PyKey × PyVal),
      args.foldl pyDictPop d = d.filter (fun p => !args.contains p.1) := by
  induction args with
  | nil =>
    intro d
    simp [List.filter_eq_self]
  | cons k ks ih =>
    intro d
    show ks.foldl pyDictPop (pyDictPop d k) = _
    rw [ih, pyDictPop, List.filter_filter]
    congr 1
    funext p
    simp [List.contains_cons]
    exact Bool.and_comm _ _

/-- C7 (counterexample): `del_attributes(self, *args)` has no `delete_all`
parameter; supplying the keyword `delete_all=True` is a Python `TypeError`
("unexpected keyword argument") raised before the body runs, and the
attributes are not cleared. -/
theorem C7_del_attributes_counterexample :
    Menu.del_attributes_call (.mk "t" [(.str "a", .int 1)] [] 4) []
        [("delete_all", .bool true)]
      = (.error
           (.typeError "del_attributes() got an unexpected keyword argument"),
         .mk "t" [(.str "a", .int 1)] [] 4) := by
  rfl

/-- C7 (amended): `del_attributes` removes exactly the named keys from the
attribute mapping (keys not present are ignored, not an error); it has no
`delete_all` option — supplying one as a keyword is a `TypeError`
(clearing everything is done by the `attributes` property deleter
instead); and a call with no keys fails with the library `Error`, leaving
the node unchanged. -/
theorem C7_del_attributes :
    (∀ (m : Menu) (args : List PyKey), args ≠ [] →
      args.all PyKey.isStr = true →
      m.del_attributes args
        = (.ok (), .mk m.title
            (m.attributes.filter (fun p => !args.contains p.1))
            m.sub_menus m.tree_indent)) ∧
    (∀ m : Menu, m.del_attributes []
      = (.error (.err "del_attributes() requires at least one argument"), m)) ∧
    (∀ (m : Menu) (args : List PyKey) (kwargs : List (String × PyVal)),
      kwargs ≠ [] →
      m.del_attributes_call args kwargs
        = (.error
            (.typeError "del_attributes() got an unexpected keyword argument"),
           m)) := by
  refine ⟨?_, ?_, ?_⟩
  · intro m args hne hstr
    rw [Menu.del_attributes]
    rw [if_neg (by simpa [List.isEmpty_iff] using hne)]
    rw [if_neg (by simp [hstr])]
    rw [foldl_pyDictPop]
  · intro m
    rfl
  · intro m args kwargs hne
    rw [Menu.del_attributes_call]
    rw [if_pos (by simpa [List.isEmpty_iff] using hne)]

/-- Witness for C7: deleting `"a"` and the absent `"zz"` from
`{"a": 1, "b": 2}` succeeds and leaves exactly `{"b": 2}`; the empty call
raises and changes nothing; a `delete_all` keyword raises `TypeError`. -/
theorem C7_del_attributes_witness :
    Menu.del_attributes (.mk "t" [(.str "a", .int 1), (.str "b", .int 2)] [] 4)
        [.str "a", .str "zz"]
      = (.ok (), .mk "t" [(.str "b", .int 2)] [] 4) ∧
    Menu.del_attributes (.mk "t" [(.str "a", .int 1)] [] 4) []
      = (.error (.err "del_attributes() requires at least one argument"),
         .mk "t" [(.str "a", .int 1)] [] 4) ∧
    Menu.del_attributes_call (.mk "t" [] [] 4) [] [("delete_all", .bool true)]
      = (.error
          (.typeError "del_attributes() got an unexpected keyword argument"),
         .mk "t" [] [] 4) := by
  refine ⟨?_, ?_, ?_⟩
  · have h := C7_del_attributes.1
      (.mk "t" [(.str "a", .int 1), (.str "b", .int 2)] [] 4)
      [.str "a", .str "zz"] (by decide) (by decide)
    exact h.trans (by rfl)
  · exact C7_del_attributes.2.1 (.mk "t" [(.str "a", .int 1)] [] 4)
  · exact C7_del_attributes.2.2 (.mk "t" [] [] 4) []
      [("delete_all", .bool true)] (by simp)

/-! ## Attribute-shape invariants (C8) -/

theorem pyDictUpdate_all (P : PyKey × PyVal → Bool) (d : List (PyKey × PyVal))
    (k : PyKey) (v : PyVal) (hd : d.all P = true) (hkv : P (k, v) = true) :
    (pyDictUpdate d k v).all P = true := by
  unfold pyDictUpdate
  split
  · simp only [List.all_eq_true] at hd ⊢
    intro p hp
    simp only [List.mem_map] at hp
    obtain ⟨q, hq, hqe⟩ := hp
    by_cases h : q.1 = k
    · rw [← hqe]
      simp [h, hkv]
    · rw [← hqe]
      simp only [h, if_false]
      exact hd q hq
  · simp only [List.all_eq_true] at hd ⊢
    intro p hp
    rcases List.mem_append.mp hp with hcase | hcase
    · exact hd p hcase
    · simp at hcase
      subst hcase
      exact hkv

theorem pyDictUpdateAll_all (P : PyKey × PyVal → Bool) :
    ∀ (kvs d : List (PyKey × PyVal)), d.all P = true → kvs.all P = true →
      (pyDictUpdateAll d kvs).all P = true := by
  intro kvs
  induction kvs with
  | nil =>
    intro d hd _
    simpa [pyDictUpdateAll] using hd
  | cons q kvs ih =>
    intro d hd hkvs
    simp only [List.all_cons, Bool.and_eq_true] at hkvs
    show (pyDictUpdateAll (pyDictUpdate d q.1 q.2) kvs).all P = true
    exact ih _ (pyDictUpdate_all P d q.1 q.2 hd (by simpa using hkvs.1)) hkvs.2

/-- A failed guard `!a.isEmpty && !a.all P` means `a.all P` holds (an empty
list satisfies `all` vacuously). -/
theorem all_of_guard (P : α → Bool) (a : List α)
    (h : ¬((!a.isEmpty && !a.all P) = true)) : a.all P = true := by
  cases a with
  | nil => simp
  | cons x xs => simpa using h

mutual

/-- Keys are strings and values Scalars, at every node of the tree. -/
def attrShapeOK : Menu → Bool
  | .mk _ a subs _ =>
    a.all (fun p => p.1.isStr && scalarOK p.2) && attrShapeOKL subs

/-- The conjunction of `attrShapeOK` over a sibling list. -/
def attrShapeOKL : List Menu → Bool
  | [] => true
  | m :: ms => attrShapeOK m && attrShapeOKL ms

end

mutual

/-- Size of a plain-data record (for induction). -/
def mdSize : MenuDict → Nat
  | .mk _ _ subs => 1 + mdSizeL subs

/-- Total size of a list of records. -/
def mdSizeL : List MenuDict → Nat
  | [] => 0
  | d :: ds => mdSize d + mdSizeL ds

end

theorem mdSize_pos (d : MenuDict) : 0 < mdSize d := by
  cases d
  simp [mdSize]

/-- Every tree `instantiate_from_dict` accepts satisfies the attribute
shape invariant at every node: the keys were checked to be strings and the
values to be Scalars before the node was built. -/
theorem instantiate_attrShape (n : Nat) :
    (∀ (d : MenuDict) (m : Menu), mdSize d ≤ n →
      Menu.instantiate_from_dict d = .ok m → attrShapeOK m = true) ∧
    (∀ (ds : List MenuDict) (ms : List Menu), mdSizeL ds ≤ n →
      instantiateL ds = .ok ms → attrShapeOKL ms = true) := by
  induction n with
  | zero =>
    constructor
    · intro d m hsz _
      exfalso
      have := mdSize_pos d
      omega
    · intro ds ms hsz hok
      cases ds with
      | nil =>
        simp [instantiateL] at hok
        subst hok
        simp [attrShapeOKL]
      | cons d ds' =>
        exfalso
        have := mdSize_pos d
        simp [mdSizeL] at hsz
        omega
  | succ n ih =>
    have hmenu : ∀ (d : MenuDict) (m : Menu), mdSize d ≤ n + 1 →
        Menu.instantiate_from_dict d = .ok m → attrShapeOK m = true := by
      intro d m hsz hok
      cases d with
      | mk t a subs =>
        have hsz' : mdSizeL subs ≤ n := by
          simp [mdSize] at hsz
          omega
        simp only [Menu.instantiate_from_dict] at hok
        split at hok
        · exact absurd hok (by simp)
        · split at hok
          · exact absurd hok (by simp)
          · rename_i h1 h2
            split at hok
            · exact absurd hok (by simp)
            · rename_i children heq
              simp only [Except.ok.injEq] at hok
              subst hok
              simp only [attrShapeOK, Bool.and_eq_true]
              have hall : (a.all fun p => p.1.isStr && scalarOK p.2) = true := by
                have hk := all_of_guard (fun p => p.1.isStr) a h1
                have hv := all_of_guard (fun p => scalarOK p.2) a h2
                simp only [List.all_eq_true, Bool.and_eq_true] at hk hv ⊢
                exact fun p hp => ⟨hk p hp, hv p hp⟩
              exact ⟨pyDictUpdateAll_all _ a [] (by simp) hall,
                ih.2 subs children hsz' heq⟩
    constructor
    · exact hmenu
    · intro ds ms hsz hok
      cases ds with
      | nil =>
        simp [instantiateL] at hok
        subst hok
        simp [attrShapeOKL]
      | cons d ds' =>
        have hd : mdSize d ≤ n + 1 := by
          simp [mdSizeL] at hsz
          omega
        have hds' : mdSizeL ds' ≤ n := by
          have := mdSize_pos d
          simp [mdSizeL] at hsz
          omega
        simp only [instantiateL] at hok
        split at hok
        · exact absurd hok (by simp)
        · rename_i c heqc
          split at hok
          · exact absurd hok (by simp)
          · rename_i cs heqcs
            simp only [Except.ok.injEq] at hok
            subst hok
            simp only [attrShapeOKL, Bool.and_eq_true]
            exact ⟨hmenu d c hd heqc, ih.2 ds' cs hds' heqcs⟩

/-- A successful `add_attributes` preserves the key/value shape invariant
(its keyword names are strings, and its guard validated the values). -/
theorem add_attributes_shape (m m' : Menu) (kwargs : List (String × PyVal))
    (hok : m.add_attributes kwargs = (.ok (), m'))
    (hm : m.attributes.all (fun p => p.1.isStr && scalarOK p.2) = true) :
    m'.attributes.all (fun p => p.1.isStr && scalarOK p.2) = true := by
  rw [Menu.add_attributes] at hok
  split at hok
  · simp at hok
  · split at hok
    · simp at hok
    · rename_i h1 h2
      simp only [Prod.mk.injEq] at hok
      rw [← hok.2]
      simp only [Menu.attributes]
      apply pyDictUpdateAll_all _ _ _ hm
      simp only [Bool.not_eq_true', Bool.not_eq_false] at h2
      simp only [List.all_eq_true] at h2
      simp only [List.all_eq_true]
      intro p hp
      obtain ⟨q, hq, hqe⟩ := List.mem_map.mp hp
      rw [← hqe]
      simp only [PyKey.isStr, Bool.true_and]
      exact h2 q hq

/-- C8 (counterexample): the key part of the invariant is not enforced at
the `attributes` property setter — `menu.attributes = {1: "x"}` succeeds
(only the values are validated) and leaves a non-string key in the
mapping. -/
theorem C8_attribute_shape_counterexample :
    (Menu.set_attributes (Menu.init (some "t")) [(.int 1, .str "x")]).1
        = .ok () ∧
    ((Menu.set_attributes (Menu.init (some "t"))
        [(.int 1, .str "x")]).2).attributes.all (fun p => p.1.isStr)
      = false := by
  exact ⟨rfl, rfl⟩

/-- C8 (amended): after every successful mutation the attribute *values*
are Scalars; the *keys* are strings after `add_attributes`, after
reconstruction via `instantiate_from_dict` (at every node), and after the
`text`/`comment` setters (whenever they held before, since these sites
only add string keys) — but the `attributes` property setter checks only
the values, so it preserves string-keyedness only when the supplied
mapping is itself string-keyed (its values are still validated). -/
theorem C8_attribute_shapes :
    (∀ (m m' : Menu) (kwargs : List (PyKey × PyVal)),
      m.set_attributes kwargs = (.ok (), m') →
      m'.attributes.all (fun p => scalarOK p.2) = true) ∧
    (∀ (m m' : Menu) (kwargs : List (PyKey × PyVal)),
      m.set_attributes kwargs = (.ok (), m') →
      kwargs.all (fun p => p.1.isStr) = true →
      m'.attributes.all (fun p => p.1.isStr && scalarOK p.2) = true) ∧
    (∀ (m m' : Menu) (kwargs : List (String × PyVal)),
      m.add_attributes kwargs = (.ok (), m') →
      m.attributes.all (fun p => p.1.isStr && scalarOK p.2) = true →
      m'.attributes.all (fun p => p.1.isStr && scalarOK p.2) = true) ∧
    (∀ (d : MenuDict) (m : Menu),
      Menu.instantiate_from_dict d = .ok m → attrShapeOK m = true) ∧
    (∀ (m m' : Menu) (c : String),
      m.set_text c = (.ok (), m') →
      m.attributes.all (fun p => p.1.isStr && scalarOK p.2) = true →
      m'.attributes.all (fun p => p.1.isStr && scalarOK p.2) = true) ∧
    (∀ (m m' : Menu) (c : String),
      m.set_comment c = (.ok (), m') →
      m.attributes.all (fun p => p.1.isStr && scalarOK p.2) = true →
      m'.attributes.all (fun p => p.1.isStr && scalarOK p.2) = true) := by
  have hset : ∀ (m m' : Menu) (kwargs : List (PyKey × PyVal)),
      m.set_attributes kwargs = (.ok (), m') →
      m'.attributes = pyDictUpdateAll [] kwargs ∧
        kwargs.all (fun p => scalarOK p.2) = true := by
    intro m m' kwargs hok
    rw [Menu.set_attributes] at hok
    split at hok
    · simp at hok
    · rename_i h
      simp only [Prod.mk.injEq] at hok
      refine ⟨?_, all_of_guard _ _ h⟩
      rw [← hok.2]
      rfl
  refine ⟨?_, ?_, ?_, ?_, ?_, ?_⟩
  · intro m m' kwargs hok
    obtain ⟨he, hv⟩ := hset m m' kwargs hok
    rw [he]
    exact pyDictUpdateAll_all _ kwargs [] (by simp) hv
  · intro m m' kwargs hok hk
    obtain ⟨he, hv⟩ := hset m m' kwargs hok
    rw [he]
    apply pyDictUpdateAll_all _ kwargs [] (by simp)
    simp only [List.all_eq_true, Bool.and_eq_true] at hk hv ⊢
    exact fun p hp => ⟨hk p hp, hv p hp⟩
  · exact fun m m' kwargs hok hm => add_attributes_shape m m' kwargs hok hm
  · exact fun d m hok => (instantiate_attrShape (mdSize d)).1 d m le_rfl hok
  · exact fun m m' c hok hm => add_attributes_shape m m' _ hok hm
  · exact fun m m' c hok hm => add_attributes_shape m m' _ hok hm

/-- Witness for C8: the invariant at concrete calls — a string-keyed
`set_attributes`, an `add_attributes`, a reconstruction, and a `text`
setter. -/
theorem C8_attribute_shapes_witness :
    ((Menu.init (some "t")).set_attributes [(.str "k", .int 1)]
        = (.ok (), .mk "t" [(.str "k", .int 1)] [] 4) ∧
      (Menu.mk "t" [(.str "k", .int 1)] [] 4).attributes.all
        (fun p => p.1.isStr && scalarOK p.2) = true) ∧
    ((Menu.mk "t" [(.str "k", .int 1)] [] 4).add_attributes
        [("w", .bool true)]
        = (.ok (), .mk "t" [(.str "k", .int 1), (.str "w", .bool true)] [] 4) ∧
      (Menu.mk "t" [(.str "k", .int 1), (.str "w", .bool true)] [] 4).attributes.all
        (fun p => p.1.isStr && scalarOK p.2) = true) ∧
    (Menu.instantiate_from_dict (.mk "t" [(.str "k", .int 1)] [])
        = .ok (.mk "t" [(.str "k", .int 1)] [] 4) ∧
      attrShapeOK (.mk "t" [(.str "k", .int 1)] [] 4) = true) := by
  have h1 : (Menu.init (some "t")).set_attributes [(.str "k", .int 1)]
      = (.ok (), .mk "t" [(.str "k", .int 1)] [] 4) := by rfl
  have h2 : (Menu.mk "t" [(.str "k", .int 1)] [] 4).add_attributes
      [("w", .bool true)]
      = (.ok (), .mk "t" [(.str "k", .int 1), (.str "w", .bool true)] [] 4) := by
    rfl
  have h3 : Menu.instantiate_from_dict (.mk "t" [(.str "k", .int 1)] [])
      = .ok (.mk "t" [(.str "k", .int 1)] [] 4) := by
    simp [Menu.instantiate_from_dict, instantiateL, pyBlank, PyKey.isStr,
      scalarOK, pyDictUpdateAll, pyDictUpdate]
  refine ⟨⟨h1, ?_⟩, ⟨h2, ?_⟩, h3, ?_⟩
  · have := C8_attribute_shapes.2.1 (Menu.init (some "t"))
      (.mk "t" [(.str "k", .int 1)] [] 4) [(.str "k", .int 1)] h1 (by rfl)
    exact this
  · have := C8_attribute_shapes.2.2.1 (.mk "t" [(.str "k", .int 1)] [] 4)
      (.mk "t" [(.str "k", .int 1), (.str "w", .bool true)] [] 4)
      [("w", .bool true)] h2 (by rfl)
    exact this
  · exact C8_attribute_shapes.2.2.2.1 (.mk "t" [(.str "k", .int 1)] [])
      (.mk "t" [(.str "k", .int 1)] [] 4) h3

/-! ## Error eagerness / atomicity (C9) -/

/-- C9: every mutating call that fails raises before any mutation: the
receiver after a failing call is exactly the receiver before it, for each
failure mode — wrong-shaped attribute values (`set_attributes`,
`add_attributes`), empty required argument sets (`add_attributes`,
`del_attributes`), non-string keys or an unexpected keyword
(`del_attributes`), a wrong object kind (`add_sub_menu`), an out-of-range
index (`del_sub_menu`), and a non-positive indent (`tree_indent` setter);
in particular `add_attributes()` with zero arguments raises the library
`Error` and leaves the attributes unchanged. -/
theorem C9_error_atomicity :
    (∀ (m : Menu) (kw : List (PyKey × PyVal)) (e : PyError),
      (m.set_attributes kw).1 = .error e → (m.set_attributes kw).2 = m) ∧
    (∀ (m : Menu) (kw : List (String × PyVal)) (e : PyError),
      (m.add_attributes kw).1 = .error e → (m.add_attributes kw).2 = m) ∧
    (∀ (m : Menu) (args : List PyKey) (e : PyError),
      (m.del_attributes args).1 = .error e → (m.del_attributes args).2 = m) ∧
    (∀ (m : Menu) (args : List PyKey) (kw : List (String × PyVal))
       (e : PyError),
      (m.del_attributes_call args kw).1 = .error e →
      (m.del_attributes_call args kw).2 = m) ∧
    (∀ (m : Menu) (t : Option String) (mi : Option PyObj) (idx : Option Int)
       (dc : Bool) (e : PyError),
      (m.add_sub_menu t mi idx dc).1 = .error e →
      (m.add_sub_menu t mi idx dc).2 = m) ∧
    (∀ (m : Menu) (i : Int) (da : Bool) (e : PyError),
      (m.del_sub_menu i da).1 = .error e → (m.del_sub_menu i da).2 = m) ∧
    (∀ (m : Menu) (k : Int) (e : PyError),
      (m.set_tree_indent k).1 = .error e → (m.set_tree_indent k).2 = m) ∧
    (∀ m : Menu, (m.add_attributes []).1
        = .error (.err "add_attributes() requires at least one argument") ∧
      (m.add_attributes []).2 = m) := by
  refine ⟨?_, ?_, ?_, ?_, ?_, ?_, ?_, ?_⟩
  · intro m kw e h
    by_cases hc : (!kw.isEmpty && !kw.all fun p => scalarOK p.2) = true
    · simp [Menu.set_attributes, hc]
    · simp [Menu.set_attributes, hc] at h
  · intro m kw e h
    by_cases h0 : kw.isEmpty
    · simp [Menu.add_attributes, h0]
    · by_cases hc : (!kw.all fun p => scalarOK p.2) = true
      · simp [Menu.add_attributes, h0, hc]
      · simp [Menu.add_attributes, h0, hc] at h
  · intro m args e h
    by_cases h0 : args.isEmpty
    · simp [Menu.del_attributes, h0]
    · by_cases hc : (!args.all PyKey.isStr) = true
      · simp [Menu.del_attributes, h0, hc]
      · simp [Menu.del_attributes, h0, hc] at h
  · intro m args kw e h
    by_cases h0 : kw.isEmpty
    · rw [Menu.del_attributes_call] at h ⊢
      simp only [h0, Bool.not_true, Bool.false_eq_true, if_false] at h ⊢
      by_cases h1 : args.isEmpty
      · simp [Menu.del_attributes, h1]
      · by_cases hc : (!args.all PyKey.isStr) = true
        · simp [Menu.del_attributes, h1, hc]
        · simp [Menu.del_attributes, h1, hc] at h
    · simp [Menu.del_attributes_call, h0]
  · intro m t mi idx dc e h
    cases mi with
    | none => simp [Menu.add_sub_menu] at h
    | some o =>
      cases o with
      | menu c => simp [Menu.add_sub_menu] at h
      | other tag => simp [Menu.add_sub_menu]
  · intro m i da e h
    by_cases hda : da
    · simp [Menu.del_sub_menu, hda] at h
    · rw [Menu.del_sub_menu] at h ⊢
      simp only [hda, Bool.false_eq_true, if_false] at h ⊢
      cases hdel : pyDelAt m.sub_menus i with
      | ok subs => simp [hdel] at h
      | error e' => simp [hdel]
  · intro m k e h
    by_cases hk : k ≤ 0
    · simp [Menu.set_tree_indent, hk]
    · simp [Menu.set_tree_indent, hk] at h
  · intro m
    exact ⟨rfl, rfl⟩

/-- Witness for C9: `add_attributes()` with zero arguments on a concrete
node raises and leaves the node unchanged; `del_sub_menu(5)` on a
childless node raises `IndexError` and leaves it unchanged. -/
theorem C9_error_atomicity_witness :
    ((Menu.mk "t" [(.str "a", .int 1)] [] 4).add_attributes []).1
        = .error (.err "add_attributes() requires at least one argument") ∧
    ((Menu.mk "t" [(.str "a", .int 1)] [] 4).add_attributes []).2
        = .mk "t" [(.str "a", .int 1)] [] 4 ∧
    ((Menu.mk "t" [] [] 4).del_sub_menu 5 false).1
        = .error (.indexError "deque index out of range") ∧
    ((Menu.mk "t" [] [] 4).del_sub_menu 5 false).2 = .mk "t" [] [] 4 := by
  refine ⟨by rfl, ?_, by rfl, ?_⟩
  · exact C9_error_atomicity.2.1 (.mk "t" [(.str "a", .int 1)] [] 4) []
      (.err "add_attributes() requires at least one argument") (by rfl)
  · exact C9_error_atomicity.2.2.2.2.2.1 (.mk "t" [] [] 4) 5 false
      (.indexError "deque index out of range") (by rfl)

/-! ## `get_sub_menu` (C10) -/

/-- C10: `get_sub_menu` with the empty locator returns the node itself
without error and without touching any child; and a locator `i :: rest`
indexes `sub_menus` with `i` by Python sequence indexing (negative indices
from the end, `IndexError` when out of range) and continues with `rest`
from the child — so a locator of length k applies its k child-indices in
order. -/
theorem C10_get_sub_menu :
    (∀ m : Menu, m.get_sub_menu [] = .ok m) ∧
    (∀ (m : Menu) (i : Int) (rest : List Int),
      m.get_sub_menu (i :: rest)
        = match pySeqGet m.sub_menus i with
          | .ok c => c.get_sub_menu rest
          | .error e => .error e) ∧
    Menu.get_sub_menu
        (.mk "R" [] [.mk "A" [] [] 4, .mk "B" [] [.mk "C" [] [] 4] 4] 4)
        [1, 0]
      = .ok (.mk "C" [] [] 4) ∧
    Menu.get_sub_menu (.mk "R" [] [] 4) [5]
      = .error (.indexError "index out of range") := by
  refine ⟨fun m => rfl, ?_, by rfl, by rfl⟩
  intro m i rest
  show List.foldlM _ m (i :: rest) = _
  rw [List.foldlM_cons]
  cases hg : pySeqGet m.sub_menus i with
  | ok c =>
    simp only [hg]
    rfl
  | error e =>
    simp only [hg]
    rfl

/-! ## The `"dict"` form maps locator paths to payloads (C5) -/

/-- Reference path enumeration: `pathPreL f p i ms` lists, in pre-order,
`(path, f node)` for every node of the sibling subtrees `ms`, where the
siblings sit at child-indices `i, i+1, …` under the node with path `p`. -/
def pathPreL (f : Menu → α) (p : List Nat) (i : Nat) :
    List Menu → List (List Nat × α)
  | [] => []
  | m :: ms =>
      (p ++ [i], f m) :: (pathPreL f (p ++ [i]) 0 m.sub_menus
        ++ pathPreL f p (i + 1) ms)
termination_by ms => sizeL ms
decreasing_by
  all_goals simp only [sizeL]
  · have := Menu.size_eq m
    omega
  · have := Menu.size_pos m
    omega

theorem pathPreL_nil (f : Menu → α) (p : List Nat) (i : Nat) :
    pathPreL f p i [] = [] := by
  simp [pathPreL]

theorem pathPreL_cons (f : Menu → α) (p : List Nat) (i : Nat) (m : Menu)
    (ms : List Menu) :
    pathPreL f p i (m :: ms)
      = (p ++ [i], f m) :: (pathPreL f (p ++ [i]) 0 m.sub_menus
          ++ pathPreL f p (i + 1) ms) := by
  simp [pathPreL]

/-- Run the `"dict"` loop over a list of `(level, payload)` entries. -/
def runPD (st : SDState α) (items : List (Nat × α)) : SDState α :=
  items.foldl (fun s q => sdStep s q.1 q.2) st

theorem runPD_nil (st : SDState α) : runPD st [] = st := rfl

theorem runPD_cons (st : SDState α) (l : Nat) (x : α)
    (items : List (Nat × α)) :
    runPD st ((l, x) :: items) = runPD (sdStep st l x) items := rfl

theorem runPD_append (st : SDState α) (a b : List (Nat × α)) :
    runPD st (a ++ b) = runPD (runPD st a) b := by
  simp [runPD]

theorem listDictUpdate_fresh (d : List (List Nat × α)) (k : List Nat) (v : α)
    (h : ∀ q ∈ d, q.1 ≠ k) :
    listDictUpdate d k v = d ++ [(k, v)] := by
  unfold listDictUpdate
  rw [if_neg]
  simp only [List.any_eq_true, decide_eq_true_eq, not_exists]
  intro q hqk
  exact h q hqk.1 hqk.2

theorem incrLast_append (X : List Nat) (j : Nat) :
    incrLast (X ++ [j]) = X ++ [j + 1] := by
  induction X with
  | nil => simp [incrLast]
  | cons x X ih =>
    cases X with
    | nil => simp [incrLast]
    | cons y Y => simpa [incrLast] using ih

theorem take_len_cons (X : List Nat) (a : Nat) (Y : List Nat) :
    (X ++ a :: Y).take (X.length + 1) = X ++ [a] := by
  induction X with
  | nil => simp
  | cons x X ih => simpa using ih

/-- A level strictly deeper than `latest_level`: the cursor gets a new `0`
entry and the payload is stored under the extended locator. -/
theorem sdStep_deeper (c : List Nat) (lam : Nat) (d : List (List Nat × α))
    (lv : Nat) (x : α) (h0 : lv ≠ 0) (h : lam < lv) :
    sdStep ⟨c, lam, d⟩ lv x
      = ⟨c ++ [0], lv, listDictUpdate d (c ++ [0]) x⟩ := by
  rw [sdStep]
  rw [if_neg h0]
  simp only [if_pos h]

/-- A level at or above the current branch: the cursor is truncated to
`level` entries (a no-op when the level is unchanged) and its last entry
incremented — the locator of the next sibling at that level. -/
theorem sdStep_sib (p : List Nat) (j0 : Nat) (t0 : List Nat)
    (d : List (List Nat × α)) (x : α) :
    sdStep ⟨p ++ j0 :: t0, (p ++ j0 :: t0).length, d⟩ (p.length + 1) x
      = ⟨p ++ [j0 + 1], p.length + 1,
         listDictUpdate d (p ++ [j0 + 1]) x⟩ := by
  cases t0 with
  | nil =>
    rw [sdStep]
    rw [if_neg (by omega)]
    rw [if_neg (by simp), if_neg (by simp)]
    rw [incrLast_append]
  | cons u t =>
    rw [sdStep]
    rw [if_neg (by omega)]
    rw [if_neg (by simp), if_pos (by simp)]
    rw [take_len_cons, incrLast_append]

theorem append_cons_ne (p : List Nat) (a b : Nat) (t1 t2 : List Nat)
    (h : a ≠ b) : p ++ a :: t1 ≠ p ++ b :: t2 := by
  intro he
  induction p with
  | nil =>
    simp at he
    exact h he.1
  | cons x X ih =>
    simp only [List.cons_append, List.cons.injEq] at he
    exact ih he.2

theorem ne_append_cons (X : List Nat) (a : Nat) (Y : List Nat) :
    X ≠ X ++ a :: Y := by
  intro h
  have := congrArg List.length h
  simp at this

theorem append_singleton_assoc (p : List Nat) (c : Nat) (X : List Nat) :
    (p ++ [c]) ++ X = p ++ c :: X := by
  simp

theorem mem_keys_head (f : Menu → α) (p : List Nat) (i : Nat) (m : Menu)
    (ms : List Menu) :
    p ++ [i] ∈ (pathPreL f p i (m :: ms)).map Prod.fst := by
  rw [pathPreL_cons]
  simp

theorem mem_keys_sub (f : Menu → α) (p : List Nat) (i : Nat) (m : Menu)
    (ms : List Menu) (s : List Nat)
    (hs : s ∈ (pathPreL f (p ++ [i]) 0 m.sub_menus).map Prod.fst) :
    s ∈ (pathPreL f p i (m :: ms)).map Prod.fst := by
  rw [pathPreL_cons]
  simp only [List.map_cons, List.map_append, List.mem_cons, List.mem_append]
  exact Or.inr (Or.inl hs)

theorem mem_keys_rest (f : Menu → α) (p : List Nat) (i : Nat) (m : Menu)
    (ms : List Menu) (s : List Nat)
    (hs : s ∈ (pathPreL f p (i + 1) ms).map Prod.fst) :
    s ∈ (pathPreL f p i (m :: ms)).map Prod.fst := by
  rw [pathPreL_cons]
  simp only [List.map_cons, List.map_append, List.mem_cons, List.mem_append]
  exact Or.inr (Or.inr hs)

/-- Every locator produced for the sibling subtrees at indices `≥ i` under
path `p` extends `p` by a child index `≥ i`. -/
theorem pathPreL_keys (n : Nat) : ∀ ms : List Menu, sizeL ms ≤ n →
    ∀ (f : Menu → α) (p : List Nat) (i : Nat) (r : List Nat),
      r ∈ (pathPreL f p i ms).map Prod.fst →
      ∃ j t, i ≤ j ∧ r = p ++ j :: t := by
  induction n with
  | zero =>
    intro ms h f p i r hr
    cases ms with
    | nil => simp [pathPreL_nil] at hr
    | cons m ms' =>
      exfalso
      have := Menu.size_pos m
      simp [sizeL] at h
      omega
  | succ n ih =>
    intro ms h f p i r hr
    cases ms with
    | nil => simp [pathPreL_nil] at hr
    | cons m ms' =>
      have hsub : sizeL m.sub_menus ≤ n := by
        have := Menu.size_eq m
        simp [sizeL] at h
        omega
      have hms' : sizeL ms' ≤ n := by
        have := Menu.size_pos m
        simp [sizeL] at h
        omega
      rw [pathPreL_cons] at hr
      simp only [List.map_cons, List.map_append, List.mem_cons,
        List.mem_append] at hr
      rcases hr with h1 | h2 | h3
      · exact ⟨i, [], le_rfl, h1⟩
      · obtain ⟨j', t', _, he⟩ := ih m.sub_menus hsub f (p ++ [i]) 0 r h2
        refine ⟨i, j' :: t', le_rfl, ?_⟩
        rw [he, append_singleton_assoc]
      · obtain ⟨j, t, hj, he⟩ := ih ms' hms' f p (i + 1) r h3
        exact ⟨j, t, by omega, he⟩


/-- Joint invariant of the `"dict"` loop over the pre-order items of a
sibling list `ms` at level `lp+1` (where `lp` is the length of the parent
path `p`; the loop's `latest_level` always equals the cursor's length).
First part: the previous entry was the parent itself (cursor `p`); the run
stores every node of `ms`'s subtrees under its locator path, in pre-order.
Second part: the previous entry was a node inside the subtree of the
sibling at index `j0` (cursor `p ++ j0 :: t0`); the upcoming siblings get
indices `j0+1, j0+2, …`. -/
theorem runPD_flat (n : Nat) : ∀ ms : List Menu, sizeL ms ≤ n →
    (∀ (f : Menu → α) (p : List Nat) (lp : Nat)
       (acc : List (List Nat × α)), lp = p.length →
      (∀ r ∈ acc.map Prod.fst,
        ∀ s ∈ (pathPreL f p 0 ms).map Prod.fst, r ≠ s) →
      (ms = [] ∧
        runPD ⟨p, p.length, acc⟩
          ((flatL (lp + 1) ms).map (fun q => (q.1, f q.2)))
          = ⟨p, p.length, acc⟩) ∨
      (∃ t : List Nat,
        runPD ⟨p, p.length, acc⟩
          ((flatL (lp + 1) ms).map (fun q => (q.1, f q.2)))
          = ⟨p ++ (ms.length - 1) :: t,
             (p ++ (ms.length - 1) :: t).length,
             acc ++ pathPreL f p 0 ms⟩)) ∧
    (∀ (f : Menu → α) (p : List Nat) (lp j0 : Nat) (t0 : List Nat)
       (acc : List (List Nat × α)), lp = p.length →
      (∀ r ∈ acc.map Prod.fst,
        ∀ s ∈ (pathPreL f p (j0 + 1) ms).map Prod.fst, r ≠ s) →
      (ms = [] ∧
        runPD ⟨p ++ j0 :: t0, (p ++ j0 :: t0).length, acc⟩
          ((flatL (lp + 1) ms).map (fun q => (q.1, f q.2)))
          = ⟨p ++ j0 :: t0, (p ++ j0 :: t0).length, acc⟩) ∨
      (∃ t : List Nat,
        runPD ⟨p ++ j0 :: t0, (p ++ j0 :: t0).length, acc⟩
          ((flatL (lp + 1) ms).map (fun q => (q.1, f q.2)))
          = ⟨p ++ (j0 + ms.length) :: t,
             (p ++ (j0 + ms.length) :: t).length,
             acc ++ pathPreL f p (j0 + 1) ms⟩)) := by
  induction n with
  | zero =>
    intro ms h
    have hms : ms = [] := by
      cases ms with
      | nil => rfl
      | cons m ms' =>
        exfalso
        have := Menu.size_pos m
        simp [sizeL] at h
        omega
    subst hms
    constructor
    · intro f p lp acc hlp hd
      exact Or.inl ⟨rfl, by simp [flatL_nil, runPD_nil]⟩
    · intro f p lp j0 t0 acc hlp hd
      exact Or.inl ⟨rfl, by simp [flatL_nil, runPD_nil]⟩
  | succ n ih =>
    intro ms h
    cases ms with
    | nil =>
      constructor
      · intro f p lp acc hlp hd
        exact Or.inl ⟨rfl, by simp [flatL_nil, runPD_nil]⟩
      · intro f p lp j0 t0 acc hlp hd
        exact Or.inl ⟨rfl, by simp [flatL_nil, runPD_nil]⟩
    | cons m ms' =>
      have hsub : sizeL m.sub_menus ≤ n := by
        have := Menu.size_eq m
        simp [sizeL] at h
        omega
      have hms' : sizeL ms' ≤ n := by
        have := Menu.size_pos m
        simp [sizeL] at h
        omega
      -- common continuation: from the state just after storing the sibling
      -- at index c, process its children lists and the remaining siblings
      have hcont : ∀ (f : Menu → α) (p : List Nat) (c : Nat)
          (acc : List (List Nat × α)),
          (∀ r ∈ acc.map Prod.fst,
            ∀ s ∈ (pathPreL f p c (m :: ms')).map Prod.fst, r ≠ s) →
          ∃ t : List Nat,
            runPD ⟨p ++ [c], (p ++ [c]).length, acc ++ [(p ++ [c], f m)]⟩
              (((flatL (p.length + 1 + 1) m.sub_menus).map
                  (fun q => (q.1, f q.2)))
                ++ ((flatL (p.length + 1) ms').map (fun q => (q.1, f q.2))))
              = ⟨p ++ (c + ms'.length) :: t,
                 (p ++ (c + ms'.length) :: t).length,
                 acc ++ pathPreL f p c (m :: ms')⟩ := by
        intro f p c acc hd
        have hmemacc : ∀ r ∈ acc.map Prod.fst,
            r ≠ p ++ [c] ∧
            (∀ s ∈ (pathPreL f (p ++ [c]) 0 m.sub_menus).map Prod.fst,
              r ≠ s) ∧
            (∀ s ∈ (pathPreL f p (c + 1) ms').map Prod.fst, r ≠ s) := by
          intro r hr
          refine ⟨hd r hr _ (mem_keys_head f p c m ms'), ?_, ?_⟩
          · exact fun s hs => hd r hr s (mem_keys_sub f p c m ms' s hs)
          · exact fun s hs => hd r hr s (mem_keys_rest f p c m ms' s hs)
        have hdisj_rest : ∀ (extra : List (List Nat × α)),
            (∀ r ∈ extra.map Prod.fst, ∃ t', r = p ++ c :: t') →
            ∀ r ∈ ((acc ++ [(p ++ [c], f m)]) ++ extra).map Prod.fst,
              ∀ s ∈ (pathPreL f p (c + 1) ms').map Prod.fst, r ≠ s := by
          intro extra hextra r hr s hs
          obtain ⟨j', t', hj', he⟩ :=
            pathPreL_keys (sizeL ms') ms' le_rfl f p (c + 1) s hs
          simp only [List.map_append, List.mem_append] at hr
          rcases hr with hr | hr
          · rcases hr with hr | hr
            · exact (hmemacc r hr).2.2 s hs
            · simp at hr
              subst hr
              rw [he]
              exact append_cons_ne p c j' [] t' (by omega)
          · obtain ⟨t'', he''⟩ := hextra r hr
            rw [he, he'']
            exact append_cons_ne p c j' t'' t' (by omega)
        have hdisj_nil : ∀ r ∈ (acc ++ [(p ++ [c], f m)]).map Prod.fst,
            ∀ s ∈ (pathPreL f p (c + 1) ms').map Prod.fst, r ≠ s := by
          intro r hr s hs
          exact hdisj_rest [] (by simp) r (by simpa using hr) s hs
        have hdisj_children : ∀ r ∈ (acc ++ [(p ++ [c], f m)]).map Prod.fst,
            ∀ s ∈ (pathPreL f (p ++ [c]) 0 m.sub_menus).map Prod.fst,
              r ≠ s := by
          intro r hr s hs
          obtain ⟨j', t', _, he⟩ :=
            pathPreL_keys (sizeL m.sub_menus) m.sub_menus le_rfl f
              (p ++ [c]) 0 s hs
          simp only [List.map_append, List.mem_append] at hr
          rcases hr with hr | hr
          · exact (hmemacc r hr).2.1 s hs
          · simp at hr
            subst hr
            rw [he]
            exact ne_append_cons (p ++ [c]) j' t'
        have hextra_keys : ∀ r ∈ (pathPreL f (p ++ [c]) 0
              m.sub_menus).map Prod.fst, ∃ t', r = p ++ c :: t' := by
          intro r hr
          obtain ⟨j'', t'', _, he''⟩ :=
            pathPreL_keys (sizeL m.sub_menus) m.sub_menus le_rfl f
              (p ++ [c]) 0 r hr
          exact ⟨j'' :: t'', by rw [he'', append_singleton_assoc]⟩
        rcases (ih m.sub_menus hsub).1 f (p ++ [c]) (p.length + 1)
            (acc ++ [(p ++ [c], f m)]) (by simp) hdisj_children with
          ⟨hnil, hrun⟩ | ⟨t₂, hrun⟩
        · -- the sibling has no children
          rw [runPD_append, hrun]
          rcases (ih ms' hms').2 f p p.length c []
              (acc ++ [(p ++ [c], f m)]) rfl hdisj_nil with
            ⟨hnil', hrun'⟩ | ⟨t₃, hrun'⟩
          · subst hnil'
            refine ⟨[], ?_⟩
            rw [show ((flatL (p.length + 1) ([] : List Menu)).map
                (fun q => (q.1, f q.2))) = [] by simp [flatL_nil]]
            rw [runPD_nil, pathPreL_cons, hnil, pathPreL_nil, pathPreL_nil]
            simp
          · refine ⟨t₃, ?_⟩
            rw [hrun', pathPreL_cons, hnil, pathPreL_nil]
            simp
        · -- the sibling has children
          rw [runPD_append, hrun, append_singleton_assoc]
          rcases (ih ms' hms').2 f p p.length c
              ((m.sub_menus.length - 1) :: t₂)
              ((acc ++ [(p ++ [c], f m)])
                ++ pathPreL f (p ++ [c]) 0 m.sub_menus) rfl
              (hdisj_rest (pathPreL f (p ++ [c]) 0 m.sub_menus)
                hextra_keys) with
            ⟨hnil', hrun'⟩ | ⟨t₃, hrun'⟩
          · subst hnil'
            refine ⟨(m.sub_menus.length - 1) :: t₂, ?_⟩
            rw [show ((flatL (p.length + 1) ([] : List Menu)).map
                (fun q => (q.1, f q.2))) = [] by simp [flatL_nil]]
            rw [runPD_nil, pathPreL_cons, pathPreL_nil]
            simp
          · refine ⟨t₃, ?_⟩
            rw [hrun', pathPreL_cons]
            simp
      constructor
      · -- part 1: entering level lp+1 for the first time (cursor = p)
        intro f p lp acc hlp hd
        right
        subst hlp
        rw [flatL_cons]
        simp only [List.map_cons, List.map_append]
        rw [runPD_cons]
        rw [show sdStep ⟨p, p.length, acc⟩ (p.length + 1) (f m)
            = ⟨p ++ [0], p.length + 1,
               listDictUpdate acc (p ++ [0]) (f m)⟩ from
          sdStep_deeper p p.length acc (p.length + 1) (f m) (by omega)
            (by omega)]
        rw [show listDictUpdate acc (p ++ [0]) (f m)
            = acc ++ [(p ++ [0], f m)] from
          listDictUpdate_fresh acc (p ++ [0]) (f m) (fun q hq =>
            hd q.1 (List.mem_map_of_mem Prod.fst hq) _
              (mem_keys_head f p 0 m ms'))]
        rw [show (⟨p ++ [0], p.length + 1, acc ++ [(p ++ [0], f m)]⟩ :
              SDState α)
            = ⟨p ++ [0], (p ++ [0]).length, acc ++ [(p ++ [0], f m)]⟩ by
          simp]
        obtain ⟨t, hrun⟩ := hcont f p 0 acc hd
        refine ⟨t, ?_⟩
        rw [hrun]
        simp
      · -- part 2: a sibling block is in progress (cursor = p ++ j0 :: t0)
        intro f p lp j0 t0 acc hlp hd
        right
        subst hlp
        rw [flatL_cons]
        simp only [List.map_cons, List.map_append]
        rw [runPD_cons]
        rw [sdStep_sib]
        rw [show listDictUpdate acc (p ++ [j0 + 1]) (f m)
            = acc ++ [(p ++ [j0 + 1], f m)] from
          listDictUpdate_fresh acc (p ++ [j0 + 1]) (f m) (fun q hq =>
            hd q.1 (List.mem_map_of_mem Prod.fst hq) _
              (mem_keys_head f p (j0 + 1) m ms'))]
        rw [show (⟨p ++ [j0 + 1], p.length + 1,
              acc ++ [(p ++ [j0 + 1], f m)]⟩ : SDState α)
            = ⟨p ++ [j0 + 1], (p ++ [j0 + 1]).length,
               acc ++ [(p ++ [j0 + 1], f m)]⟩ by
          simp]
        obtain ⟨t, hrun⟩ := hcont f p (j0 + 1) acc hd
        refine ⟨t, ?_⟩
        rw [hrun]
        rw [show j0 + (m :: ms').length = j0 + 1 + ms'.length by
          simp only [List.length_cons]
          omega]

/-- The `"dict"` output of `get_structure` maps each node's locator path to
its payload, root first (empty path), in pre-order insertion order. -/
theorem structure_dict_eq_pathPre (f : Menu → α) (m : Menu) :
    structure_dict (m.get_structure.map (fun q => (q.1, f q.2)))
      = ([], f m) :: pathPreL f [] 0 m.sub_menus := by
  rw [get_structure_cons]
  simp only [List.map_cons]
  show (runPD ⟨[], 0, []⟩
      ((0, f m) :: (flatL 1 m.sub_menus).map (fun q => (q.1, f q.2)))).sdict
    = _
  rw [runPD_cons]
  rw [show sdStep (⟨[], 0, []⟩ : SDState α) 0 (f m) = ⟨[], 0, [([], f m)]⟩ by
    simp [sdStep, listDictUpdate]]
  have hdisj : ∀ r ∈ ([([], f m)] : List (List Nat × α)).map Prod.fst,
      ∀ s ∈ (pathPreL f [] 0 m.sub_menus).map Prod.fst, r ≠ s := by
    intro r hr s hs
    simp at hr
    subst hr
    obtain ⟨j, t, _, he⟩ := pathPreL_keys (sizeL m.sub_menus) m.sub_menus
      le_rfl f [] 0 s hs
    rw [he]
    simp
  rcases (runPD_flat (sizeL m.sub_menus) m.sub_menus le_rfl).1 f [] 0
      [([], f m)] rfl hdisj with ⟨hnil, hrun⟩ | ⟨t, hrun⟩
  · simp only [List.length_nil, Nat.zero_add] at hrun
    rw [hrun]
    rw [hnil, pathPreL_nil]
  · simp only [List.length_nil, Nat.zero_add] at hrun
    rw [hrun]
    rfl

/-- C5 (counterexample): for a root with two children, the sequence form
of `get_structure` pairs each payload with its *depth level* — the entries
for "A" and "B" both carry first component `1` although their paths `[0]`
and `[1]` differ, so the first component cannot be the node's path; and
the `"dict"` form maps the path `[0]` to the bare payload `"A"`, not to a
`(sequence position, payload)` pair. -/
theorem C5_structure_shapes_counterexample :
    Menu.get_structure_titles
        (.mk "root" [] [.mk "A" [] [] 4, .mk "B" [] [] 4] 4)
      = [(0, "root"), (1, "A"), (1, "B")] ∧
    (Menu.get_structure_titles
        (.mk "root" [] [.mk "A" [] [] 4, .mk "B" [] [] 4] 4)).map Prod.fst
      = [0, 1, 1] ∧
    (structure_dict (Menu.get_structure_titles
        (.mk "root" [] [.mk "A" [] [] 4, .mk "B" [] [] 4] 4))).map Prod.fst
      = [[], [0], [1]] ∧
    ¬ ([0, 1, 1] : List Nat).Nodup ∧
    ([[], [0], [1]] : List (List Nat)).Nodup ∧
    listDictGet (structure_dict (Menu.get_structure_titles
        (.mk "root" [] [.mk "A" [] [] 4, .mk "B" [] [] 4] 4))) [0]
      = some "A" := by
  have hgs : Menu.get_structure_titles
      (.mk "root" [] [.mk "A" [] [] 4, .mk "B" [] [] 4] 4)
      = [(0, "root"), (1, "A"), (1, "B")] := by
    simp [Menu.get_structure_titles, Menu.get_structure, structLoop_cons,
      structLoop_nil, Menu.sub_menus, Menu.title]
  refine ⟨hgs, by rw [hgs]; rfl, ?_, by decide, by decide, ?_⟩
  · rw [hgs]
    rfl
  · rw [hgs]
    rfl

/-- C5 (amended): each entry of the *sequence* output forms of
`get_structure` pairs the node's depth level with its payload (title or
node), in pre-order; it is the `"dict"` output form that exposes the
node's path — it maps each node's locator path (the child-index sequence
from the root; the root's path is the empty sequence) to the node's
payload, in pre-order insertion order.  The `"deque"`/`"tuple"`/`"list"`
forms carry the same `(level, payload)` sequence, and an unrecognized
form request fails with the library `Error`. -/
theorem C5_structure_shapes :
    (∀ m : Menu, m.get_structure_titles
        = m.preorder.map (fun q => (q.1, q.2.title))) ∧
    (∀ m : Menu, structure_dict m.get_structure_titles
        = ([], m.title) :: pathPreL Menu.title [] 0 m.sub_menus) ∧
    (∀ m : Menu, structure_dict m.get_structure
        = ([], m) :: pathPreL (fun x => x) [] 0 m.sub_menus) ∧
    (∀ s : List (Nat × Menu),
      get_structure_call s "deque" = .ok (.seq s) ∧
      get_structure_call s "tuple" = .ok (.seq s) ∧
      get_structure_call s "list" = .ok (.seq s) ∧
      get_structure_call s "dict" = .ok (.pathDict (structure_dict s)) ∧
      get_structure_call s "nope" = .error (.err "undefined type of return")) := by
  refine ⟨?_, ?_, ?_, ?_⟩
  · intro m
    rw [Menu.get_structure_titles, get_structure_eq_preorder]
  · intro m
    exact structure_dict_eq_pathPre Menu.title m
  · intro m
    have h := structure_dict_eq_pathPre (fun x => x) m
    have hmap : m.get_structure.map
        (fun q : Nat × Menu => (q.1, (fun x : Menu => x) q.2))
        = m.get_structure := by
      simp
    rw [hmap] at h
    exact h
  · intro s
    exact ⟨rfl, rfl, rfl, rfl, rfl⟩
